import Mathlib

/-!
# Verification of the YAML selective-merge engine (`YamlMerger`, src/test2.py)

Shallow embedding of the merge engine: YAML trees are modelled by the
inductive `Yaml` (insertion-ordered mappings as association lists, ordered
sequences, scalars).  Python exceptions are modelled by `Option`: a result of
`none` means the Python code raises.  Strings are Lean `String`s; Python's
`str.split('.')` and `'.'.join` are re-implemented character by character as
`pySplit` and `pyJoin` so that their behaviour matches CPython exactly.
-/

/-- Python scalar values occurring in decoded YAML documents. -/
inductive Scalar where
  | str : String → Scalar
  | int : Int → Scalar
  | bool : Bool → Scalar
  | null : Scalar
deriving DecidableEq, Repr

/-- A decoded YAML tree: mapping (string keys, insertion order preserved),
sequence, or scalar. -/
inductive Yaml where
  | map : List (String × Yaml) → Yaml
  | seq : List Yaml → Yaml
  | scalar : Scalar → Yaml
deriving Repr

/-- Python `str.split('.')` on the underlying character list: splits at every
`'.'`, keeping empty fragments; the result is never empty. -/
def pySplitChars : List Char → List (List Char)
  | [] => [[]]
  | c :: cs =>
    if c = '.' then [] :: pySplitChars cs
    else
      match pySplitChars cs with
      | [] => [[c]]
      | w :: ws => (c :: w) :: ws

/-- Python `field_str.split('.')`. -/
def pySplit (s : String) : List String :=
  (pySplitChars s.data).map (fun cs => ⟨cs⟩)

/-- Python `'.'.join(parts)`. -/
def pyJoin : List String → String
  | [] => ""
  | [s] => s
  | s :: rest => s ++ "." ++ pyJoin rest

/-- Association-list lookup, modelling Python `d[k]` / `k in d` on a dict. -/
def lookupKV : List (String × Yaml) → String → Option Yaml
  | [], _ => none
  | (k', v) :: rest, k => if k' = k then some v else lookupKV rest k

/-- Python `k in d` for a dict. -/
def containsKey (kvs : List (String × Yaml)) (k : String) : Bool :=
  (lookupKV kvs k).isSome

/-- Python `d[k] = v`: update the value at the first occurrence of `k`,
appending at the end if `k` is absent (dict insertion order). -/
def setKey : List (String × Yaml) → String → Yaml → List (String × Yaml)
  | [], k, v => [(k, v)]
  | (k', v') :: rest, k, v =>
    if k' = k then (k, v) :: rest else (k', v') :: setKey rest k v

/-- The loop of `YamlMerger.get_nested_value` over the already-split keys. -/
def getNestedGo : Yaml → List String → Option Yaml
  | cur, [] => some cur
  | cur, k :: ks =>
    match cur with
    | .map kvs =>
      match lookupKV kvs k with
      | some v => getNestedGo v ks
      | none => none
    | _ => none

/-- `YamlMerger.get_nested_value(d, field_str)` with the default `None`
modelled as `none`. -/
def get_nested_value (d : Yaml) (field : String) : Option Yaml :=
  getNestedGo d (pySplit field)

/-- The loop of `YamlMerger.create_dict_with_field` over the split keys. -/
def createGo : List String → Yaml → Yaml
  | [], _ => .map []
  | [k], v => .map [(k, v)]
  | k :: ks, v => .map [(k, createGo ks v)]

/-- `YamlMerger.create_dict_with_field(field_str, value)`. -/
def create_dict_with_field (field : String) (v : Yaml) : Yaml :=
  createGo (pySplit field) v

/-- Python truthiness of a decoded YAML value (`bool(v)`). -/
def truthy : Yaml → Bool
  | .map kvs => !kvs.isEmpty
  | .seq xs => !xs.isEmpty
  | .scalar (.str s) => !s.isEmpty
  | .scalar (.int n) => n != 0
  | .scalar (.bool b) => b
  | .scalar .null => false

/-- Truthiness of the result of `get_nested_value` (default `None` is falsy). -/
def truthyOpt : Option Yaml → Bool
  | none => false
  | some v => truthy v

/-- Whether `sub` occurs at the start of `hay` (character lists). -/
def startsWithChars : List Char → List Char → Bool
  | [], _ => true
  | _ :: _, [] => false
  | a :: as, b :: bs => a = b && startsWithChars as bs

/-- Whether `sub` occurs inside `hay` (character lists). -/
def hasSubChars : List Char → List Char → Bool
  | sub, [] => sub.isEmpty
  | sub, hay =>
    startsWithChars sub hay ||
      match hay with
      | [] => sub.isEmpty
      | _ :: rest => hasSubChars sub rest

/-- Python `token in new`.  `some b` is the boolean result; `none` models the
`TypeError` CPython raises when `new` is not a container or string. -/
def pyIn (token : String) : Yaml → Option Bool
  | .map kvs => some (containsKey kvs token)
  | .seq xs =>
    some (xs.any fun x =>
      match x with
      | .scalar (.str s) => s = token
      | _ => false)
  | .scalar (.str s) => some (hasSubChars token.data s.data)
  | .scalar _ => none

/-- The body of the `for key in union_keys` loop in the wildcard/mapping
branch of `YamlMerger.merge_pattern`, given the recursive call `f` for the
remaining tokens.  `none` propagates a raised exception. -/
def mergeKeysGo (f : Yaml → Yaml → Option Yaml) (m n : List (String × Yaml))
    (rest : List String) : List String → Option (List (String × Yaml))
  | [] => some []
  | k :: ks =>
    match lookupKV m k, lookupKV n k with
    | some mv, some nv =>
      (f mv nv).bind fun v =>
        (mergeKeysGo f m n rest ks).map fun tail => (k, v) :: tail
    | some mv, none =>
      (mergeKeysGo f m n rest ks).map fun tail => (k, mv) :: tail
    | none, onv =>
      if rest.isEmpty then
        match onv with
        | some nv =>
          (mergeKeysGo f m n rest ks).map fun tail => (k, nv) :: tail
        | none => none
      else
        match get_nested_value (.map n) (k ++ "." ++ pyJoin rest) with
        | some v =>
          if truthy v then
            (mergeKeysGo f m n rest ks).map fun tail =>
              (k, create_dict_with_field (pyJoin rest) v) :: tail
          else
            mergeKeysGo f m n rest ks
        | none => mergeKeysGo f m n rest ks

/-- Python `list(merged.keys())` extended by the new keys not yet present,
in their order of appearance. -/
def unionKeysAux (acc : List String) : List String → List String
  | [] => acc
  | k :: ks =>
    if acc.contains k then unionKeysAux acc ks
    else unionKeysAux (acc ++ [k]) ks

/-- The `union_keys` list built by the wildcard/mapping branch. -/
def unionKeys (m n : List (String × Yaml)) : List String :=
  unionKeysAux (m.map Prod.fst) (n.map Prod.fst)

/-- The positional loop of the wildcard/sequence branch. -/
def mergeSeqGo (f : Yaml → Yaml → Option Yaml) :
    List Yaml → List Yaml → Option (List Yaml)
  | [], ys => some ys
  | x :: xs, [] => some (x :: xs)
  | x :: xs, y :: ys =>
    (f x y).bind fun v => (mergeSeqGo f xs ys).map fun vs => v :: vs

/-- `YamlMerger.merge_pattern(merged, new, tokens)` (tokens first so the
recursion is structural).  `none` models a raised `TypeError`. -/
def merge_pattern : List String → Yaml → Yaml → Option Yaml
  | [], _, new => some new
  | token :: rest, merged, new =>
    if token = "*" then
      match merged, new with
      | .map mkvs, .map nkvs =>
        (mergeKeysGo (merge_pattern rest) mkvs nkvs rest
            (unionKeys mkvs nkvs)).map .map
      | .seq xs, .seq ys =>
        (mergeSeqGo (merge_pattern rest) xs ys).map .seq
      | _, _ => some new
    else
      match merged with
      | .map mkvs =>
        match pyIn token new with
        | none => none
        | some false => some (.map mkvs)
        | some true =>
          match new with
          | .map nkvs =>
            match lookupKV nkvs token with
            | some nv =>
              if rest.isEmpty then
                some (.map (setKey mkvs token nv))
              else
                (merge_pattern rest ((lookupKV mkvs token).getD (.map []))
                    nv).map fun r => .map (setKey mkvs token r)
            | none => none
          | _ => none
      | _ => some new

/-- `YamlMerger.merge_yaml(old_data, new_data)` with patterns `merge_keys`:
the deep copy is the identity in the functional model, then each pattern is
applied in order to the result of the previous one. -/
def merge_yaml (merge_keys : List String) (old_data new_data : Yaml) :
    Option Yaml :=
  merge_keys.foldlM
    (fun merged pat => merge_pattern (pySplit pat) merged new_data) old_data

/-- Runtime type test `isinstance(x, dict)`. -/
def Yaml.isMap : Yaml → Bool
  | .map _ => true
  | _ => false

/-- The value the wildcard/mapping loop of `merge_pattern` computes for one
union key `q` (specification of one `for` iteration): recursive merge when
`q` is in both mappings, the merged value when only there, the new value or
the reconstructed single-branch tree (or nothing, `none`) when only in the
new mapping. -/
def keyEntry (f : Yaml → Yaml → Option Yaml) (m n : List (String × Yaml))
    (rest : List String) (q : String) : Option Yaml :=
  match lookupKV m q, lookupKV n q with
  | some mv, some nv => f mv nv
  | some mv, none => some mv
  | none, onv =>
    if rest.isEmpty then onv
    else
      match get_nested_value (.map n) (q ++ "." ++ pyJoin rest) with
      | some v =>
        if truthy v then some (create_dict_with_field (pyJoin rest) v)
        else none
      | none => none

/-- Whether the wildcard/mapping loop establishes an entry for union key `q`
(assuming the whole loop returns without raising). -/
def keyKeptB (m n : List (String × Yaml)) (rest : List String)
    (q : String) : Bool :=
  containsKey m q ||
    (if rest.isEmpty then containsKey n q
     else truthyOpt (get_nested_value (.map n) (q ++ "." ++ pyJoin rest)))

/-- Value of a tree at a key path (each segment a mapping key). -/
def lookupPath : Yaml → List String → Option Yaml
  | y, [] => some y
  | .map kvs, k :: ks =>
    match lookupKV kvs k with
    | some v => lookupPath v ks
    | none => none
  | _, _ :: _ => none

/-- Whether a pattern token matches a key path segment. -/
def tokenMatches (t k : String) : Bool := t == "*" || t == k

/-- Whether a key path is covered by a pattern, in the generous sense of the
claim: the pattern's tokens match the path's segments as far as both lists
go (so a path that is a prefix of a matched path, or extends one, counts as
covered; only a definite token mismatch within both lists makes it
uncovered). -/
def pathCovered : List String → List String → Bool
  | [], _ => true
  | _ :: _, [] => true
  | p :: ps, t :: ts => tokenMatches t p && pathCovered ps ts

/-- Whether a pattern can never disturb the value at a key path, relative to
the new tree `nw`: at each level, either a literal token differs from the
path segment, or descent stops with the merged side kept (literal key absent
from the new mapping, or the new node not a mapping at a literal token —
where the only alternative to keeping the merged node is raising), or
descent continues one level down a matching segment; at a wildcard token the
new node must be a mapping (anything else replaces the whole merged subtree
with the new one) in which the path segment is absent or protected deeper.
An exhausted pattern or an exhausted path is never protected. -/
def protects (nw : Yaml) : List String → List String → Bool
  | _, [] => false
  | [], _ :: _ => false
  | t :: ts, p :: ps =>
    if t = "*" then
      match nw with
      | .map nkvs =>
        match lookupKV nkvs p with
        | none => true
        | some nv => protects nv ts ps
      | _ => false
    else
      if t = p then
        match nw with
        | .map nkvs =>
          match lookupKV nkvs t with
          | none => true
          | some nv => protects nv ts ps
        | _ => true
      else true

/-- Whether a string contains no dot (so Python re-splitting on `'.'` leaves
it whole). -/
def dotFreeS (s : String) : Bool := !s.data.contains '.'

/-- A mapping key that survives the engine's join-and-resplit round trips:
dot-free and distinct from the wildcard token. -/
def cleanKeyB (k : String) : Bool := dotFreeS k && k != "*"

/-- No duplicate keys in an association list (every Python dict satisfies
this). -/
def nodupKeysB : List (String × Yaml) → Bool
  | [] => true
  | (k, _) :: rest => !containsKey rest k && nodupKeysB rest

mutual

/-- Well-formedness of a tree as decoded from a Python/YAML document: every
mapping has pairwise distinct keys. -/
def wfYaml : Yaml → Bool
  | .map kvs => nodupKeysB kvs && wfKVs kvs
  | .seq xs => wfSeq xs
  | .scalar _ => true

/-- `wfYaml` on every value of an association list. -/
def wfKVs : List (String × Yaml) → Bool
  | [] => true
  | (_, v) :: rest => wfYaml v && wfKVs rest

/-- `wfYaml` on every element of a list. -/
def wfSeq : List Yaml → Bool
  | [] => true
  | x :: xs => wfYaml x && wfSeq xs

end

mutual

/-- Cleanliness of a tree: every mapping has pairwise distinct keys, each
dot-free and different from `"*"`. -/
def cleanYaml : Yaml → Bool
  | .map kvs => nodupKeysB kvs && cleanKVs kvs
  | .seq xs => cleanSeq xs
  | .scalar _ => true

/-- `cleanYaml` on an association list, keys included. -/
def cleanKVs : List (String × Yaml) → Bool
  | [] => true
  | (k, v) :: rest => cleanKeyB k && cleanYaml v && cleanKVs rest

/-- `cleanYaml` on every element of a list. -/
def cleanSeq : List Yaml → Bool
  | [] => true
  | x :: xs => cleanYaml x && cleanSeq xs

end

/-! ## Basic lemmas about the helpers -/

theorem pySplitChars_ne_nil (l : List Char) : pySplitChars l ≠ [] := by
  induction l with
  | nil => simp [pySplitChars]
  | cons c cs ih =>
    simp only [pySplitChars]
    split
    · simp
    · split
      · simp
      · simp

theorem pySplit_ne_nil (s : String) : pySplit s ≠ [] := by
  simp only [pySplit, ne_eq, List.map_eq_nil_iff]
  exact pySplitChars_ne_nil s.data

theorem pySplitChars_dotfree (l : List Char) (h : l.contains '.' = false) :
    pySplitChars l = [l] := by
  induction l with
  | nil => rfl
  | cons c cs ih =>
    simp only [List.contains_cons, Bool.or_eq_false_iff] at h
    have hc : ¬ c = '.' := by
      intro hh
      subst hh
      simp at h
    simp only [pySplitChars, if_neg hc, ih h.2]

theorem pySplitChars_append (a b : List Char) (h : a.contains '.' = false) :
    pySplitChars (a ++ '.' :: b) = a :: pySplitChars b := by
  induction a with
  | nil => simp [pySplitChars]
  | cons c cs ih =>
    simp only [List.contains_cons, Bool.or_eq_false_iff] at h
    have hc : ¬ c = '.' := by
      intro hh
      subst hh
      simp at h
    simp only [List.cons_append, pySplitChars, if_neg hc, List.append_eq,
      ih h.2]

theorem data_append_dot (s t : String) :
    (s ++ "." ++ t).data = s.data ++ '.' :: t.data := by
  simp [String.data_append]

theorem pySplit_append_dot (s t : String) (h : dotFreeS s = true) :
    pySplit (s ++ "." ++ t) = s :: pySplit t := by
  simp only [dotFreeS, Bool.not_eq_true', Bool.not_eq_false] at h
  simp only [pySplit, data_append_dot,
    pySplitChars_append s.data t.data (by simpa using h), List.map_cons]

theorem pySplit_single (s : String) (h : dotFreeS s = true) :
    pySplit s = [s] := by
  simp only [dotFreeS, Bool.not_eq_true', Bool.not_eq_false] at h
  simp only [pySplit, pySplitChars_dotfree s.data (by simpa using h),
    List.map_cons, List.map_nil]

theorem pySplit_pyJoin (parts : List String) (hne : parts ≠ [])
    (h : ∀ p ∈ parts, dotFreeS p = true) :
    pySplit (pyJoin parts) = parts := by
  induction parts with
  | nil => exact absurd rfl hne
  | cons p ps ih =>
    cases ps with
    | nil =>
      simp only [pyJoin]
      exact pySplit_single p (h p (by simp))
    | cons p₂ ps₂ =>
      simp only [pyJoin]
      rw [pySplit_append_dot p (pyJoin (p₂ :: ps₂)) (h p (by simp))]
      rw [ih (by simp) (fun q hq => h q (List.mem_cons_of_mem p hq))]

theorem pySplitChars_mem_dotfree (l : List Char) :
    ∀ w ∈ pySplitChars l, w.contains '.' = false := by
  induction l with
  | nil =>
    intro w hw
    simp only [pySplitChars, List.mem_singleton] at hw
    subst hw
    rfl
  | cons c cs ih =>
    intro w hw
    by_cases hc : c = '.'
    · simp only [pySplitChars, if_pos hc, List.mem_cons] at hw
      rcases hw with hw | hw
      · subst hw; rfl
      · exact ih w hw
    · simp only [pySplitChars, if_neg hc] at hw
      cases hsp : pySplitChars cs with
      | nil => exact absurd hsp (pySplitChars_ne_nil cs)
      | cons w₀ ws =>
        rw [hsp] at hw
        simp only [List.mem_cons] at hw
        rcases hw with hw | hw
        · subst hw
          have h₀ : w₀.contains '.' = false := ih w₀ (by rw [hsp]; simp)
          have hmem : ('.' : Char) ∉ w₀ := by simpa using h₀
          have hne : ¬ ('.' : Char) = c := fun hh => hc hh.symm
          simp [List.contains_cons, hne, hmem]
        · exact ih w (by rw [hsp]; simp [hw])

theorem pySplit_mem_dotfree (s : String) :
    ∀ tok ∈ pySplit s, dotFreeS tok = true := by
  intro tok htok
  simp only [pySplit, List.mem_map] at htok
  obtain ⟨w, hw, hmk⟩ := htok
  subst hmk
  simp only [dotFreeS]
  have := pySplitChars_mem_dotfree s.data w hw
  simpa using this

theorem lookupKV_setKey_self (m : List (String × Yaml)) (k : String) (v : Yaml) :
    lookupKV (setKey m k v) k = some v := by
  induction m with
  | nil => simp [setKey, lookupKV]
  | cons kv rest ih =>
    obtain ⟨k', v'⟩ := kv
    by_cases h : k' = k
    · simp [setKey, h, lookupKV]
    · simp [setKey, h, lookupKV, ih]

theorem lookupKV_setKey_other (m : List (String × Yaml)) (k k' : String)
    (v : Yaml) (h : k' ≠ k) :
    lookupKV (setKey m k v) k' = lookupKV m k' := by
  have h' : ¬ k = k' := fun hh => h hh.symm
  induction m with
  | nil => simp [setKey, lookupKV, h']
  | cons kv rest ih =>
    obtain ⟨k₀, v₀⟩ := kv
    by_cases h₀ : k₀ = k
    · subst h₀
      simp [setKey, lookupKV, h']
    · simp [setKey, h₀, lookupKV, ih]

theorem setKey_keys_of_mem (m : List (String × Yaml)) (k : String) (v : Yaml)
    (h : containsKey m k = true) :
    (setKey m k v).map Prod.fst = m.map Prod.fst := by
  induction m with
  | nil => simp [containsKey, lookupKV] at h
  | cons kv rest ih =>
    obtain ⟨k₀, v₀⟩ := kv
    by_cases h₀ : k₀ = k
    · simp [setKey, h₀]
    · simp only [containsKey, lookupKV, if_neg h₀] at h
      simp [setKey, h₀, ih h]

theorem lookupKV_mem (m : List (String × Yaml)) (k : String) (v : Yaml)
    (h : lookupKV m k = some v) : (k, v) ∈ m := by
  induction m with
  | nil => simp [lookupKV] at h
  | cons kv rest ih =>
    obtain ⟨k₀, v₀⟩ := kv
    by_cases hk : k₀ = k
    · subst hk
      simp only [lookupKV, if_pos rfl] at h
      simp at h
      subst h
      exact List.mem_cons_self _ _
    · simp only [lookupKV, if_neg hk] at h
      exact List.mem_cons_of_mem _ (ih h)

theorem getNestedGo_createGo (ks : List String) (v : Yaml) (h : ks ≠ []) :
    getNestedGo (createGo ks v) ks = some v := by
  induction ks with
  | nil => exact absurd rfl h
  | cons k ks ih =>
    cases ks with
    | nil => simp [createGo, getNestedGo, lookupKV]
    | cons k₂ ks₂ =>
      simp only [createGo, getNestedGo, lookupKV, if_pos rfl]
      exact ih (by simp)

theorem containsKey_iff_mem (m : List (String × Yaml)) (q : String) :
    containsKey m q = true ↔ q ∈ m.map Prod.fst := by
  induction m with
  | nil => simp [containsKey, lookupKV]
  | cons kv rest ih =>
    obtain ⟨k₀, v₀⟩ := kv
    by_cases h : k₀ = q
    · subst h
      simp [containsKey, lookupKV]
    · simp only [containsKey, lookupKV, if_neg h, List.map_cons,
        List.mem_cons]
      rw [← containsKey, ih]
      constructor
      · exact fun hm => Or.inr hm
      · rintro (hq | hm)
        · exact absurd hq.symm h
        · exact hm

theorem contains_map_fst (m : List (String × Yaml)) (q : String) :
    (m.map Prod.fst).contains q = containsKey m q := by
  cases hc : containsKey m q with
  | true =>
    have := (containsKey_iff_mem m q).mp hc
    simpa using this
  | false =>
    have : q ∉ m.map Prod.fst := fun hm =>
      by simp [(containsKey_iff_mem m q).mpr hm] at hc
    simpa using this

theorem containsKey_of_mem (m : List (String × Yaml)) (k : String) (v : Yaml)
    (h : (k, v) ∈ m) : containsKey m k = true :=
  (containsKey_iff_mem m k).mpr (by
    have : k ∈ m.map Prod.fst := List.mem_map.mpr ⟨(k, v), h, rfl⟩
    exact this)

theorem lookup_of_mem_nodup (m : List (String × Yaml)) (k : String) (v : Yaml)
    (hnd : nodupKeysB m = true) (h : (k, v) ∈ m) :
    lookupKV m k = some v := by
  induction m with
  | nil => simp at h
  | cons kv rest ih =>
    obtain ⟨k₀, v₀⟩ := kv
    simp only [nodupKeysB, Bool.and_eq_true, Bool.not_eq_true'] at hnd
    simp only [List.mem_cons] at h
    rcases h with h | h
    · rw [Prod.mk.injEq] at h
      obtain ⟨hk, hv⟩ := h
      subst hk
      subst hv
      simp [lookupKV]
    · by_cases hk : k₀ = k
      · subst hk
        exact absurd (containsKey_of_mem rest k₀ v h) (by simp [hnd.1])
      · simp only [lookupKV, if_neg hk]
        exact ih hnd.2 h

theorem nodupKeysB_iff (m : List (String × Yaml)) :
    nodupKeysB m = true ↔ (m.map Prod.fst).Nodup := by
  induction m with
  | nil => simp [nodupKeysB]
  | cons kv rest ih =>
    obtain ⟨k₀, v₀⟩ := kv
    simp only [nodupKeysB, Bool.and_eq_true, Bool.not_eq_true',
      List.map_cons, List.nodup_cons, ih]
    constructor
    · rintro ⟨h1, h2⟩
      refine ⟨fun hmem => ?_, h2⟩
      rw [(containsKey_iff_mem rest k₀).mpr hmem] at h1
      simp at h1
    · rintro ⟨h1, h2⟩
      refine ⟨?_, h2⟩
      cases hc : containsKey rest k₀ with
      | true => exact absurd ((containsKey_iff_mem rest k₀).mp hc) h1
      | false => rfl

theorem setKey_lookup_eq (m : List (String × Yaml)) (k : String) (v : Yaml)
    (h : lookupKV m k = some v) : setKey m k v = m := by
  induction m with
  | nil => simp [lookupKV] at h
  | cons kv rest ih =>
    obtain ⟨k₀, v₀⟩ := kv
    by_cases hk : k₀ = k
    · subst hk
      simp only [lookupKV, if_pos rfl] at h
      simp at h
      subst h
      simp [setKey]
    · simp only [lookupKV, if_neg hk] at h
      simp [setKey, hk, ih h]

theorem setKey_setKey (m : List (String × Yaml)) (k : String)
    (v₁ v₂ : Yaml) : setKey (setKey m k v₁) k v₂ = setKey m k v₂ := by
  induction m with
  | nil => simp [setKey]
  | cons kv rest ih =>
    obtain ⟨k₀, v₀⟩ := kv
    by_cases hk : k₀ = k
    · subst hk
      simp [setKey]
    · simp [setKey, hk, ih]

theorem containsKey_setKey_other (m : List (String × Yaml)) (k q : String)
    (v : Yaml) (h : q ≠ k) :
    containsKey (setKey m k v) q = containsKey m q := by
  simp [containsKey, lookupKV_setKey_other m k q v h]

theorem nodupKeysB_setKey (m : List (String × Yaml)) (k : String) (v : Yaml)
    (h : nodupKeysB m = true) : nodupKeysB (setKey m k v) = true := by
  induction m with
  | nil => simp [setKey, nodupKeysB, containsKey, lookupKV]
  | cons kv rest ih =>
    obtain ⟨k₀, v₀⟩ := kv
    simp only [nodupKeysB, Bool.and_eq_true, Bool.not_eq_true'] at h
    by_cases hk : k₀ = k
    · subst hk
      simp [setKey, nodupKeysB, h.1, h.2]
    · simp only [setKey, if_neg hk, nodupKeysB, Bool.and_eq_true,
        Bool.not_eq_true']
      refine ⟨?_, ih h.2⟩
      rw [containsKey_setKey_other rest k k₀ v hk]
      exact h.1

theorem wfKVs_mem (m : List (String × Yaml)) (k : String) (v : Yaml)
    (h : wfKVs m = true) (hm : (k, v) ∈ m) : wfYaml v = true := by
  induction m with
  | nil => simp at hm
  | cons kv rest ih =>
    obtain ⟨k₀, v₀⟩ := kv
    simp only [wfKVs, Bool.and_eq_true] at h
    simp only [List.mem_cons] at hm
    rcases hm with hm | hm
    · rw [Prod.mk.injEq] at hm
      rw [← hm.2] at h
      exact h.1
    · exact ih h.2 hm

theorem wfKVs_setKey (m : List (String × Yaml)) (k : String) (v : Yaml)
    (h : wfKVs m = true) (hv : wfYaml v = true) :
    wfKVs (setKey m k v) = true := by
  induction m with
  | nil => simp [setKey, wfKVs, hv]
  | cons kv rest ih =>
    obtain ⟨k₀, v₀⟩ := kv
    simp only [wfKVs, Bool.and_eq_true] at h
    by_cases hk : k₀ = k
    · subst hk
      simp [setKey, wfKVs, hv, h.2]
    · simp [setKey, hk, wfKVs, h.1, ih h.2]

theorem cleanKVs_mem (m : List (String × Yaml)) (k : String) (v : Yaml)
    (h : cleanKVs m = true) (hm : (k, v) ∈ m) :
    cleanKeyB k = true ∧ cleanYaml v = true := by
  induction m with
  | nil => simp at hm
  | cons kv rest ih =>
    obtain ⟨k₀, v₀⟩ := kv
    simp only [cleanKVs, Bool.and_eq_true] at h
    simp only [List.mem_cons] at hm
    rcases hm with hm | hm
    · rw [Prod.mk.injEq] at hm
      rw [← hm.1, ← hm.2] at h
      exact ⟨h.1.1, h.1.2⟩
    · exact ih h.2 hm

theorem wfSeq_mem (xs : List Yaml) (x : Yaml) (h : wfSeq xs = true)
    (hm : x ∈ xs) : wfYaml x = true := by
  induction xs with
  | nil => simp at hm
  | cons y ys ih =>
    simp only [wfSeq, Bool.and_eq_true] at h
    simp only [List.mem_cons] at hm
    rcases hm with hm | hm
    · subst hm; exact h.1
    · exact ih h.2 hm

theorem cleanSeq_mem (xs : List Yaml) (x : Yaml) (h : cleanSeq xs = true)
    (hm : x ∈ xs) : cleanYaml x = true := by
  induction xs with
  | nil => simp at hm
  | cons y ys ih =>
    simp only [cleanSeq, Bool.and_eq_true] at h
    simp only [List.mem_cons] at hm
    rcases hm with hm | hm
    · subst hm; exact h.1
    · exact ih h.2 hm

theorem wfKVs_of_forall (m : List (String × Yaml))
    (h : ∀ k v, (k, v) ∈ m → wfYaml v = true) : wfKVs m = true := by
  induction m with
  | nil => rfl
  | cons kv rest ih =>
    obtain ⟨k₀, v₀⟩ := kv
    simp only [wfKVs, Bool.and_eq_true]
    exact ⟨h k₀ v₀ (by simp),
      ih fun k v hm => h k v (List.mem_cons_of_mem _ hm)⟩

theorem wfSeq_of_forall (xs : List Yaml)
    (h : ∀ x ∈ xs, wfYaml x = true) : wfSeq xs = true := by
  induction xs with
  | nil => rfl
  | cons y ys ih =>
    simp only [wfSeq, Bool.and_eq_true]
    exact ⟨h y (by simp), ih fun x hx => h x (List.mem_cons_of_mem _ hx)⟩

theorem wfYaml_lookup (kvs : List (String × Yaml)) (k : String) (v : Yaml)
    (h : wfYaml (.map kvs) = true) (hl : lookupKV kvs k = some v) :
    wfYaml v = true := by
  simp only [wfYaml, Bool.and_eq_true] at h
  exact wfKVs_mem kvs k v h.2 (lookupKV_mem kvs k v hl)

theorem cleanYaml_lookup (kvs : List (String × Yaml)) (k : String) (v : Yaml)
    (h : cleanYaml (.map kvs) = true) (hl : lookupKV kvs k = some v) :
    cleanKeyB k = true ∧ cleanYaml v = true := by
  simp only [cleanYaml, Bool.and_eq_true] at h
  exact cleanKVs_mem kvs k v h.2 (lookupKV_mem kvs k v hl)

theorem getNestedGo_wf (ks : List String) :
    ∀ (d v : Yaml), wfYaml d = true → getNestedGo d ks = some v →
      wfYaml v = true := by
  induction ks with
  | nil =>
    intro d v hd h
    simp only [getNestedGo, Option.some_inj] at h
    subst h
    exact hd
  | cons k ks ih =>
    intro d v hd h
    cases d with
    | map kvs =>
      cases hl : lookupKV kvs k with
      | none => simp [getNestedGo, hl] at h
      | some w =>
        simp only [getNestedGo, hl] at h
        exact ih w v (wfYaml_lookup kvs k w hd hl) h
    | seq xs => simp [getNestedGo] at h
    | scalar s => simp [getNestedGo] at h

theorem getNestedGo_clean (ks : List String) :
    ∀ (d v : Yaml), cleanYaml d = true → getNestedGo d ks = some v →
      cleanYaml v = true := by
  induction ks with
  | nil =>
    intro d v hd h
    simp only [getNestedGo, Option.some_inj] at h
    subst h
    exact hd
  | cons k ks ih =>
    intro d v hd h
    cases d with
    | map kvs =>
      cases hl : lookupKV kvs k with
      | none => simp [getNestedGo, hl] at h
      | some w =>
        simp only [getNestedGo, hl] at h
        exact ih w v (cleanYaml_lookup kvs k w hd hl).2 h
    | seq xs => simp [getNestedGo] at h
    | scalar s => simp [getNestedGo] at h

theorem createGo_wf (ks : List String) (v : Yaml) (hv : wfYaml v = true) :
    wfYaml (createGo ks v) = true := by
  induction ks with
  | nil => rfl
  | cons k ks ih =>
    cases ks with
    | nil => simp [createGo, wfYaml, nodupKeysB, containsKey, lookupKV,
        wfKVs, hv]
    | cons k₂ ks₂ =>
      simp [createGo, wfYaml, nodupKeysB, containsKey, lookupKV, wfKVs]
      exact ih

theorem unionKeysAux_self (ns : List String) :
    ∀ acc : List String, (∀ k ∈ ns, k ∈ acc) → unionKeysAux acc ns = acc := by
  induction ns with
  | nil => intro acc _; rfl
  | cons k ks ih =>
    intro acc h
    have hk : k ∈ acc := h k (by simp)
    have hc : acc.contains k = true := by simpa using hk
    simp only [unionKeysAux]
    rw [if_pos hc]
    exact ih acc fun q hq => h q (List.mem_cons_of_mem _ hq)

theorem unionKeysAux_nodup (ns : List String) :
    ∀ acc : List String, acc.Nodup → (unionKeysAux acc ns).Nodup := by
  induction ns with
  | nil => intro acc h; simpa [unionKeysAux] using h
  | cons k ks ih =>
    intro acc h
    simp only [unionKeysAux]
    by_cases hc : acc.contains k
    · rw [if_pos hc]
      exact ih acc h
    · rw [if_neg hc]
      refine ih (acc ++ [k]) ?_
      have hk : k ∉ acc := by simpa using hc
      simp [List.nodup_append, h, hk]

theorem unionKeysAux_eq_append (ns : List String) :
    ∀ acc : List String, ns.Nodup →
      unionKeysAux acc ns = acc ++ ns.filter (fun k => !acc.contains k) := by
  induction ns with
  | nil => intro acc _; simp [unionKeysAux]
  | cons k ks ih =>
    intro acc hnd
    have hk : k ∉ ks := (List.nodup_cons.mp hnd).1
    have hks : ks.Nodup := (List.nodup_cons.mp hnd).2
    by_cases hc : k ∈ acc
    · have hc' : acc.contains k = true := by simp [hc]
      simp only [unionKeysAux, if_pos hc', List.filter_cons, hc',
        Bool.not_true]
      exact ih acc hks
    · have hc' : acc.contains k = false := by simp [hc]
      simp only [unionKeysAux, hc', Bool.false_eq_true, if_false,
        List.filter_cons, Bool.not_false, if_true]
      rw [ih (acc ++ [k]) hks]
      have hfilter : ks.filter (fun x => !(acc ++ [k]).contains x) =
          ks.filter (fun x => !acc.contains x) := by
        apply List.filter_congr
        intro x hx
        have hxk : ¬ x = k := fun hh => hk (hh ▸ hx)
        simp [hxk]
      rw [hfilter]
      simp [List.append_assoc]

theorem mem_unionKeysAux_of_acc (q : String) :
    ∀ (ns acc : List String), q ∈ acc → q ∈ unionKeysAux acc ns := by
  intro ns
  induction ns with
  | nil => intro acc h; simpa [unionKeysAux] using h
  | cons k ks ih =>
    intro acc h
    simp only [unionKeysAux]
    by_cases hc : acc.contains k
    · rw [if_pos hc]
      exact ih acc h
    · rw [if_neg hc]
      exact ih (acc ++ [k]) (by simp [h])

theorem mem_unionKeysAux_of_ns (q : String) :
    ∀ (ns acc : List String), q ∈ ns → q ∈ unionKeysAux acc ns := by
  intro ns
  induction ns with
  | nil => intro acc h; simp at h
  | cons k ks ih =>
    intro acc h
    simp only [List.mem_cons] at h
    simp only [unionKeysAux]
    rcases h with h | h
    · subst h
      by_cases hc : acc.contains q
      · rw [if_pos hc]
        exact mem_unionKeysAux_of_acc q ks acc (by simpa using hc)
      · rw [if_neg hc]
        exact mem_unionKeysAux_of_acc q ks (acc ++ [q]) (by simp)
    · by_cases hc : acc.contains k
      · rw [if_pos hc]
        exact ih acc h
      · rw [if_neg hc]
        exact ih (acc ++ [k]) h

theorem mem_unionKeys_left (m n : List (String × Yaml)) (q : String)
    (h : q ∈ m.map Prod.fst) : q ∈ unionKeys m n :=
  mem_unionKeysAux_of_acc q (n.map Prod.fst) (m.map Prod.fst) h

theorem mem_unionKeys_right (m n : List (String × Yaml)) (q : String)
    (h : q ∈ n.map Prod.fst) : q ∈ unionKeys m n :=
  mem_unionKeysAux_of_ns q (n.map Prod.fst) (m.map Prod.fst) h

theorem mergeKeysGo_lookup (f : Yaml → Yaml → Option Yaml)
    (m n : List (String × Yaml)) (rest : List String) :
    ∀ (keys : List String) (kvs : List (String × Yaml)),
      mergeKeysGo f m n rest keys = some kvs → ∀ q : String,
      lookupKV kvs q = if q ∈ keys then keyEntry f m n rest q else none := by
  intro keys
  induction keys with
  | nil =>
    intro kvs h q
    simp only [mergeKeysGo, Option.some_inj] at h
    subst h
    simp [lookupKV]
  | cons k ks ih =>
    intro kvs h q
    simp only [mergeKeysGo] at h
    cases hm : lookupKV m k with
    | some mv =>
      cases hn : lookupKV n k with
      | some nv =>
        simp only [hm, hn] at h
        cases hf : f mv nv with
        | none => simp [hf] at h
        | some u =>
          cases ht : mergeKeysGo f m n rest ks with
          | none => simp [hf, ht] at h
          | some tail =>
            simp only [hf, ht] at h
            simp at h
            subst h
            by_cases hq : k = q
            · subst hq
              simp [lookupKV, keyEntry, hm, hn, hf]
            · have hqk : ¬ q = k := fun hh => hq hh.symm
              simp only [lookupKV, if_neg hq, ih tail ht q, List.mem_cons,
                hqk, false_or]
      | none =>
        simp only [hm, hn] at h
        cases ht : mergeKeysGo f m n rest ks with
        | none => simp [ht] at h
        | some tail =>
          simp only [ht] at h
          simp at h
          subst h
          by_cases hq : k = q
          · subst hq
            simp [lookupKV, keyEntry, hm, hn]
          · have hqk : ¬ q = k := fun hh => hq hh.symm
            simp only [lookupKV, if_neg hq, ih tail ht q, List.mem_cons,
              hqk, false_or]
    | none =>
      simp only [hm] at h
      cases hrest : rest.isEmpty with
      | true =>
        simp only [hrest, if_true] at h
        cases hn : lookupKV n k with
        | none => simp [hn] at h
        | some nv =>
          simp only [hn] at h
          cases ht : mergeKeysGo f m n rest ks with
          | none => simp [ht] at h
          | some tail =>
            simp only [ht] at h
            simp at h
            subst h
            by_cases hq : k = q
            · subst hq
              simp [lookupKV, keyEntry, hm, hn, hrest]
            · have hqk : ¬ q = k := fun hh => hq hh.symm
              simp only [lookupKV, if_neg hq, ih tail ht q, List.mem_cons,
                hqk, false_or]
      | false =>
        simp only [hrest, if_false] at h
        cases hg : get_nested_value (.map n) (k ++ "." ++ pyJoin rest) with
        | some v =>
          simp only [hg] at h
          cases htr : truthy v with
          | true =>
            simp only [htr, if_true] at h
            cases ht : mergeKeysGo f m n rest ks with
            | none => simp [ht] at h
            | some tail =>
              simp only [ht] at h
              simp at h
              subst h
              by_cases hq : k = q
              · subst hq
                simp [lookupKV, keyEntry, hm, hrest, hg, htr]
              · have hqk : ¬ q = k := fun hh => hq hh.symm
                simp only [lookupKV, if_neg hq, ih tail ht q,
                  List.mem_cons, hqk, false_or]
          | false =>
            simp only [htr, if_false] at h
            by_cases hq : k = q
            · subst hq
              have hke : keyEntry f m n rest k = none := by
                simp [keyEntry, hm, hrest, hg, htr]
              simp [ih kvs h k, hke]
            · have hqk : ¬ q = k := fun hh => hq hh.symm
              simp only [ih kvs h q, List.mem_cons, hqk, false_or]
        | none =>
          simp only [hg] at h
          by_cases hq : k = q
          · subst hq
            have hke : keyEntry f m n rest k = none := by
              simp [keyEntry, hm, hrest, hg]
            simp [ih kvs h k, hke]
          · have hqk : ¬ q = k := fun hh => hq hh.symm
            simp only [ih kvs h q, List.mem_cons, hqk, false_or]

theorem mergeKeysGo_keys (f : Yaml → Yaml → Option Yaml)
    (m n : List (String × Yaml)) (rest : List String) :
    ∀ (keys : List String) (kvs : List (String × Yaml)),
      mergeKeysGo f m n rest keys = some kvs →
      kvs.map Prod.fst = keys.filter (keyKeptB m n rest) := by
  intro keys
  induction keys with
  | nil =>
    intro kvs h
    simp only [mergeKeysGo, Option.some_inj] at h
    subst h
    simp
  | cons k ks ih =>
    intro kvs h
    simp only [mergeKeysGo] at h
    cases hm : lookupKV m k with
    | some mv =>
      have hck : containsKey m k = true := by simp [containsKey, hm]
      cases hn : lookupKV n k with
      | some nv =>
        simp only [hm, hn] at h
        cases hf : f mv nv with
        | none => simp [hf] at h
        | some u =>
          cases ht : mergeKeysGo f m n rest ks with
          | none => simp [hf, ht] at h
          | some tail =>
            simp only [hf, ht] at h
            simp at h
            subst h
            simp [List.filter_cons, keyKeptB, hck, ih tail ht]
      | none =>
        simp only [hm, hn] at h
        cases ht : mergeKeysGo f m n rest ks with
        | none => simp [ht] at h
        | some tail =>
          simp only [ht] at h
          simp at h
          subst h
          simp [List.filter_cons, keyKeptB, hck, ih tail ht]
    | none =>
      have hck : containsKey m k = false := by simp [containsKey, hm]
      simp only [hm] at h
      cases hrest : rest.isEmpty with
      | true =>
        simp only [hrest, if_true] at h
        cases hn : lookupKV n k with
        | none => simp [hn] at h
        | some nv =>
          have hcn : containsKey n k = true := by simp [containsKey, hn]
          simp only [hn] at h
          cases ht : mergeKeysGo f m n rest ks with
          | none => simp [ht] at h
          | some tail =>
            simp only [ht] at h
            simp at h
            subst h
            simp [List.filter_cons, keyKeptB, hck, hrest, hcn, ih tail ht]
      | false =>
        simp only [hrest, if_false] at h
        cases hg : get_nested_value (.map n) (k ++ "." ++ pyJoin rest) with
        | some v =>
          simp only [hg] at h
          cases htr : truthy v with
          | true =>
            simp only [htr, if_true] at h
            cases ht : mergeKeysGo f m n rest ks with
            | none => simp [ht] at h
            | some tail =>
              simp only [ht] at h
              simp at h
              subst h
              simp [List.filter_cons, keyKeptB, hck, hrest, hg, truthyOpt,
                htr, ih tail ht]
          | false =>
            simp only [htr, if_false] at h
            simp [List.filter_cons, keyKeptB, hck, hrest, hg, truthyOpt,
              htr, ih kvs h]
        | none =>
          simp only [hg] at h
          simp [List.filter_cons, keyKeptB, hck, hrest, hg, truthyOpt,
            ih kvs h]

theorem merge_pattern_map_eq (rest : List String)
    (m n : List (String × Yaml)) (r : Yaml)
    (h : merge_pattern ("*" :: rest) (.map m) (.map n) = some r) :
    ∃ kvs, r = .map kvs ∧
      mergeKeysGo (merge_pattern rest) m n rest (unionKeys m n) = some kvs := by
  simp only [merge_pattern, if_pos rfl] at h
  cases hg : mergeKeysGo (merge_pattern rest) m n rest (unionKeys m n) with
  | none => simp [hg] at h
  | some kvs =>
    simp only [hg, Option.map_some] at h
    simp at h
    exact ⟨kvs, h.symm, rfl⟩

theorem mergeKeysGo_cons_some (f : Yaml → Yaml → Option Yaml)
    (m n : List (String × Yaml)) (rest : List String) (k : String)
    (ks : List String) (u : Yaml) (h : keyEntry f m n rest k = some u) :
    mergeKeysGo f m n rest (k :: ks) =
      (mergeKeysGo f m n rest ks).map fun tail => (k, u) :: tail := by
  simp only [keyEntry] at h
  simp only [mergeKeysGo]
  cases hm : lookupKV m k with
  | some mv =>
    cases hn : lookupKV n k with
    | some nv =>
      simp only [hm, hn] at h ⊢
      rw [h]
      rfl
    | none =>
      simp only [hm, hn] at h ⊢
      simp at h
      subst h
      rfl
  | none =>
    simp only [hm] at h ⊢
    cases hre : rest.isEmpty with
    | true =>
      simp only [hre, if_true] at h ⊢
      cases hn : lookupKV n k with
      | none => simp [hn] at h
      | some nv =>
        simp only [hn] at h ⊢
        simp at h
        subst h
        rfl
    | false =>
      simp only [hre, Bool.false_eq_true, if_false] at h ⊢
      cases hg : get_nested_value (.map n) (k ++ "." ++ pyJoin rest) with
      | none => simp [hg] at h
      | some v =>
        simp only [hg] at h ⊢
        cases htr : truthy v with
        | false => simp [htr] at h
        | true =>
          simp only [htr, if_true] at h ⊢
          simp at h
          subst h
          rfl

theorem mergeKeysGo_cons_skip (f : Yaml → Yaml → Option Yaml)
    (m n : List (String × Yaml)) (rest : List String) (k : String)
    (ks : List String) (hm : lookupKV m k = none)
    (hre : rest.isEmpty = false)
    (hdrop : truthyOpt
      (get_nested_value (.map n) (k ++ "." ++ pyJoin rest)) = false) :
    mergeKeysGo f m n rest (k :: ks) = mergeKeysGo f m n rest ks := by
  simp only [mergeKeysGo, hm, hre, Bool.false_eq_true, if_false]
  cases hg : get_nested_value (.map n) (k ++ "." ++ pyJoin rest) with
  | none => rfl
  | some v =>
    rw [hg] at hdrop
    simp only [truthyOpt] at hdrop
    simp [hdrop]

theorem mergeKeysGo_skip_all (f : Yaml → Yaml → Option Yaml)
    (m n : List (String × Yaml)) (rest : List String) :
    ∀ ks : List String,
      (∀ k ∈ ks, lookupKV m k = none ∧ rest.isEmpty = false ∧
        truthyOpt
          (get_nested_value (.map n) (k ++ "." ++ pyJoin rest)) = false) →
      mergeKeysGo f m n rest ks = some [] := by
  intro ks
  induction ks with
  | nil => intro _; rfl
  | cons k ks ih =>
    intro h
    obtain ⟨h1, h2, h3⟩ := h k (by simp)
    rw [mergeKeysGo_cons_skip f m n rest k ks h1 h2 h3]
    exact ih fun q hq => h q (List.mem_cons_of_mem _ hq)

theorem mergeKeysGo_reconstruct (f : Yaml → Yaml → Option Yaml)
    (m n : List (String × Yaml)) (rest : List String) :
    ∀ (l : List (String × Yaml)) (ks₂ : List String),
      (∀ p ∈ l, keyEntry f m n rest p.1 = some p.2) →
      mergeKeysGo f m n rest ks₂ = some [] →
      mergeKeysGo f m n rest (l.map Prod.fst ++ ks₂) = some l := by
  intro l
  induction l with
  | nil =>
    intro ks₂ _ h2
    simpa using h2
  | cons p l ih =>
    intro ks₂ h1 h2
    obtain ⟨k, u⟩ := p
    simp only [List.map_cons, List.cons_append]
    rw [mergeKeysGo_cons_some f m n rest k (l.map Prod.fst ++ ks₂) u
      (h1 (k, u) (by simp))]
    rw [ih ks₂ (fun q hq => h1 q (List.mem_cons_of_mem _ hq)) h2]
    rfl

theorem mergeSeqGo_self (f : Yaml → Yaml → Option Yaml) :
    ∀ xs : List Yaml, (∀ x ∈ xs, f x x = some x) →
      mergeSeqGo f xs xs = some xs := by
  intro xs
  induction xs with
  | nil => intro _; rfl
  | cons x xs ih =>
    intro h
    simp only [mergeSeqGo]
    rw [h x (by simp), ih fun q hq => h q (List.mem_cons_of_mem _ hq)]
    rfl

theorem mergeSeqGo_mem (f : Yaml → Yaml → Option Yaml) :
    ∀ (xs ys zs : List Yaml), mergeSeqGo f xs ys = some zs →
      ∀ z ∈ zs, (∃ x ∈ xs, ∃ y ∈ ys, f x y = some z) ∨ z ∈ xs ∨ z ∈ ys := by
  intro xs
  induction xs with
  | nil =>
    intro ys zs h z hz
    simp only [mergeSeqGo, Option.some_inj] at h
    subst h
    exact Or.inr (Or.inr hz)
  | cons x xs ih =>
    intro ys zs h z hz
    cases ys with
    | nil =>
      simp only [mergeSeqGo, Option.some_inj] at h
      subst h
      exact Or.inr (Or.inl hz)
    | cons y ys =>
      simp only [mergeSeqGo] at h
      cases hf : f x y with
      | none => simp [hf] at h
      | some v =>
        cases hrec : mergeSeqGo f xs ys with
        | none => simp [hf, hrec] at h
        | some vs =>
          simp only [hf, hrec] at h
          simp at h
          subst h
          simp only [List.mem_cons] at hz
          rcases hz with hz | hz
          · subst hz
            exact Or.inl ⟨x, by simp, y, by simp, hf⟩
          · rcases ih ys vs hrec z hz with ⟨a, ha, b, hb, hab⟩ | hz | hz
            · exact Or.inl ⟨a, List.mem_cons_of_mem _ ha, b,
                List.mem_cons_of_mem _ hb, hab⟩
            · exact Or.inr (Or.inl (List.mem_cons_of_mem _ hz))
            · exact Or.inr (Or.inr (List.mem_cons_of_mem _ hz))

theorem mergeSeqGo_idem (f : Yaml → Yaml → Option Yaml) :
    ∀ (xs ys zs : List Yaml),
      (∀ x y z, x ∈ xs → y ∈ ys → f x y = some z → f z y = some z) →
      (∀ y ∈ ys, f y y = some y) →
      mergeSeqGo f xs ys = some zs →
      mergeSeqGo f zs ys = some zs := by
  intro xs
  induction xs with
  | nil =>
    intro ys zs _ hself h
    simp only [mergeSeqGo, Option.some_inj] at h
    subst h
    exact mergeSeqGo_self f ys hself
  | cons x xs ih =>
    intro ys zs hf hself h
    cases ys with
    | nil =>
      simp only [mergeSeqGo, Option.some_inj] at h
      subst h
      rfl
    | cons y ys =>
      simp only [mergeSeqGo] at h
      cases hv : f x y with
      | none => simp [hv] at h
      | some v =>
        cases hrec : mergeSeqGo f xs ys with
        | none => simp [hv, hrec] at h
        | some vs =>
          simp only [hv, hrec] at h
          simp at h
          subst h
          simp only [mergeSeqGo]
          rw [hf x y v (by simp) (by simp) hv]
          rw [ih ys vs
            (fun a b c ha hb hab =>
              hf a b c (List.mem_cons_of_mem _ ha)
                (List.mem_cons_of_mem _ hb) hab)
            (fun q hq => hself q (List.mem_cons_of_mem _ hq)) hrec]
          rfl

theorem wfYaml_map_nodup (kvs : List (String × Yaml))
    (h : wfYaml (.map kvs) = true) : nodupKeysB kvs = true := by
  simp only [wfYaml, Bool.and_eq_true] at h
  exact h.1

theorem wfYaml_map_kvs (kvs : List (String × Yaml))
    (h : wfYaml (.map kvs) = true) : wfKVs kvs = true := by
  simp only [wfYaml, Bool.and_eq_true] at h
  exact h.2

theorem wfYaml_seq_elems (xs : List Yaml)
    (h : wfYaml (.seq xs) = true) : wfSeq xs = true := h

theorem cleanYaml_map_nodup (kvs : List (String × Yaml))
    (h : cleanYaml (.map kvs) = true) : nodupKeysB kvs = true := by
  simp only [cleanYaml, Bool.and_eq_true] at h
  exact h.1

theorem cleanYaml_seq_elems (xs : List Yaml)
    (h : cleanYaml (.seq xs) = true) : cleanSeq xs = true := h

theorem merge_pattern_self :
    ∀ (t : List String) (x : Yaml), wfYaml x = true →
      merge_pattern t x x = some x := by
  intro t
  induction t with
  | nil => intro x _; rfl
  | cons t₀ ts ih =>
    intro x hx
    by_cases hstar : t₀ = "*"
    · subst hstar
      cases x with
      | map kvs =>
        simp only [merge_pattern, if_pos rfl]
        have hnd : nodupKeysB kvs = true := wfYaml_map_nodup kvs hx
        have hwf : wfKVs kvs = true := wfYaml_map_kvs kvs hx
        have hunion : unionKeys kvs kvs = kvs.map Prod.fst := by
          unfold unionKeys
          exact unionKeysAux_self _ _ (fun k hk => hk)
        rw [hunion]
        have hrec : mergeKeysGo (merge_pattern ts) kvs kvs ts
            (kvs.map Prod.fst) = some kvs := by
          have hr := mergeKeysGo_reconstruct (merge_pattern ts) kvs kvs ts
            kvs [] ?_ rfl
          · simpa using hr
          · rintro ⟨k, u⟩ hp
            have hl : lookupKV kvs k = some u :=
              lookup_of_mem_nodup kvs k u hnd hp
            simp only [keyEntry, hl]
            exact ih u (wfKVs_mem kvs k u hwf hp)
        rw [hrec]
        rfl
      | seq xs =>
        simp only [merge_pattern, if_pos rfl]
        have hws : wfSeq xs = true := wfYaml_seq_elems xs hx
        rw [mergeSeqGo_self (merge_pattern ts) xs
          (fun q hq => ih q (wfSeq_mem xs q hws hq))]
        rfl
      | scalar s => rfl
    · cases x with
      | map kvs =>
        cases hc : lookupKV kvs t₀ with
        | none =>
          have hcc : containsKey kvs t₀ = false := by simp [containsKey, hc]
          simp [merge_pattern, hstar, pyIn, hcc]
        | some w =>
          have hcc : containsKey kvs t₀ = true := by simp [containsKey, hc]
          have hwv : wfYaml w = true := wfYaml_lookup kvs t₀ w hx hc
          have hmw : merge_pattern ts w w = some w := ih w hwv
          cases hre : ts.isEmpty with
          | true =>
            simp [merge_pattern, hstar, pyIn, hcc, hc, hre,
              setKey_lookup_eq kvs t₀ w hc]
          | false =>
            simp [merge_pattern, hstar, pyIn, hcc, hc, hre, hmw,
              setKey_lookup_eq kvs t₀ w hc]
      | seq xs => simp [merge_pattern, hstar]
      | scalar s => simp [merge_pattern, hstar]

theorem merge_pattern_wf :
    ∀ (t : List String) (m nw M : Yaml), wfYaml m = true →
      wfYaml nw = true → merge_pattern t m nw = some M →
      wfYaml M = true := by
  intro t
  induction t with
  | nil =>
    intro m nw M _ hn h
    simp only [merge_pattern] at h
    simp at h
    subst h
    exact hn
  | cons t₀ ts ih =>
    intro m nw M hm hn h
    by_cases hstar : t₀ = "*"
    · subst hstar
      cases m with
      | map mkvs =>
        cases nw with
        | map nkvs =>
          obtain ⟨kvs, hr, hgo⟩ := merge_pattern_map_eq ts mkvs nkvs M h
          subst hr
          have hknd : (kvs.map Prod.fst).Nodup := by
            rw [mergeKeysGo_keys _ _ _ _ _ kvs hgo]
            apply List.Nodup.filter
            unfold unionKeys
            apply unionKeysAux_nodup
            exact (nodupKeysB_iff mkvs).mp (wfYaml_map_nodup mkvs hm)
          have hvals : ∀ k v, (k, v) ∈ kvs → wfYaml v = true := by
            intro k v hkv
            have hl : lookupKV kvs k = some v :=
              lookup_of_mem_nodup kvs k v ((nodupKeysB_iff kvs).mpr hknd) hkv
            have hmem : k ∈ unionKeys mkvs nkvs := by
              by_contra hnot
              have hlk := mergeKeysGo_lookup _ _ _ _ _ kvs hgo k
              rw [if_neg hnot] at hlk
              rw [hlk] at hl
              simp at hl
            have hlk := mergeKeysGo_lookup _ _ _ _ _ kvs hgo k
            rw [if_pos hmem] at hlk
            rw [hl] at hlk
            simp only [keyEntry] at hlk
            cases hmk : lookupKV mkvs k with
            | some mv =>
              cases hnk : lookupKV nkvs k with
              | some nv =>
                simp only [hmk, hnk] at hlk
                exact ih mv nv v (wfYaml_lookup mkvs k mv hm hmk)
                  (wfYaml_lookup nkvs k nv hn hnk) hlk.symm
              | none =>
                simp only [hmk, hnk] at hlk
                have hv : v = mv := by simpa using hlk
                subst hv
                exact wfYaml_lookup mkvs k v hm hmk
            | none =>
              simp only [hmk] at hlk
              cases hre : ts.isEmpty with
              | true =>
                rw [hre] at hlk
                simp only [if_true] at hlk
                cases hnk : lookupKV nkvs k with
                | none => rw [hnk] at hlk; simp at hlk
                | some nv =>
                  rw [hnk] at hlk
                  have hv : v = nv := by simpa using hlk
                  subst hv
                  exact wfYaml_lookup nkvs k v hn hnk
              | false =>
                rw [hre] at hlk
                simp only [Bool.false_eq_true, if_false] at hlk
                cases hg : get_nested_value (.map nkvs)
                    (k ++ "." ++ pyJoin ts) with
                | none => simp [hg] at hlk
                | some w =>
                  simp only [hg] at hlk
                  cases htr : truthy w with
                  | false => simp [htr] at hlk
                  | true =>
                    simp only [htr, if_true] at hlk
                    have hv : v = create_dict_with_field (pyJoin ts) w := by
                      simpa using hlk
                    subst hv
                    have hww : wfYaml w = true :=
                      getNestedGo_wf _ _ w hn hg
                    exact createGo_wf _ w hww
          simp only [wfYaml, Bool.and_eq_true]
          exact ⟨(nodupKeysB_iff kvs).mpr hknd, wfKVs_of_forall kvs hvals⟩
        | seq ys =>
          simp only [merge_pattern, if_pos rfl] at h
          simp at h
          subst h
          exact hn
        | scalar s =>
          simp only [merge_pattern, if_pos rfl] at h
          simp at h
          subst h
          exact hn
      | seq xs =>
        cases nw with
        | seq ys =>
          simp only [merge_pattern, if_pos rfl] at h
          cases hg : mergeSeqGo (merge_pattern ts) xs ys with
          | none => rw [hg] at h; simp at h
          | some zs =>
            rw [hg] at h
            have hM : M = .seq zs := by
              have := Option.some_inj.mp h
              exact this.symm
            subst hM
            have hwx : wfSeq xs = true := wfYaml_seq_elems xs hm
            have hwy : wfSeq ys = true := wfYaml_seq_elems ys hn
            apply wfSeq_of_forall
            intro z hz
            rcases mergeSeqGo_mem _ xs ys zs hg z hz with
              ⟨a, ha, b, hb, hab⟩ | hz | hz
            · exact ih a b z (wfSeq_mem xs a hwx ha) (wfSeq_mem ys b hwy hb)
                hab
            · exact wfSeq_mem xs z hwx hz
            · exact wfSeq_mem ys z hwy hz
        | map nkvs =>
          simp only [merge_pattern, if_pos rfl] at h
          simp at h
          subst h
          exact hn
        | scalar s =>
          simp only [merge_pattern, if_pos rfl] at h
          simp at h
          subst h
          exact hn
      | scalar s =>
        have hM : M = nw := by
          cases nw <;> simp only [merge_pattern, if_pos rfl] at h <;>
            simp at h <;> exact h.symm
        subst hM
        exact hn
    · cases m with
      | map mkvs =>
        cases hb : pyIn t₀ nw with
        | none =>
          simp only [merge_pattern, if_neg hstar, hb] at h
          simp at h
        | some b =>
          cases b with
          | false =>
            simp only [merge_pattern, if_neg hstar, hb] at h
            simp at h
            subst h
            exact hm
          | true =>
            cases nw with
            | seq ys =>
              simp only [merge_pattern, if_neg hstar, hb] at h
              simp at h
            | scalar sc =>
              simp only [merge_pattern, if_neg hstar, hb] at h
              simp at h
            | map nkvs =>
              simp only [merge_pattern, if_neg hstar, hb] at h
              cases hnv : lookupKV nkvs t₀ with
              | none => rw [hnv] at h; simp at h
              | some nv =>
                rw [hnv] at h
                have hwnv : wfYaml nv = true := wfYaml_lookup nkvs t₀ nv hn hnv
                cases hre : ts.isEmpty with
                | true =>
                  rw [hre] at h
                  simp only [if_true] at h
                  simp at h
                  subst h
                  simp only [wfYaml, Bool.and_eq_true]
                  exact ⟨nodupKeysB_setKey mkvs t₀ nv
                      (wfYaml_map_nodup mkvs hm),
                    wfKVs_setKey mkvs t₀ nv (wfYaml_map_kvs mkvs hm) hwnv⟩
                | false =>
                  rw [hre] at h
                  simp only [Bool.false_eq_true, if_false] at h
                  cases hu : merge_pattern ts
                      ((lookupKV mkvs t₀).getD (.map [])) nv with
                  | none => rw [hu] at h; simp at h
                  | some R =>
                    rw [hu] at h
                    have hM : M = .map (setKey mkvs t₀ R) := by
                      have h2 : some (Yaml.map (setKey mkvs t₀ R)) = some M :=
                        h
                      exact (Option.some_inj.mp h2).symm
                    subst hM
                    have hwg : wfYaml ((lookupKV mkvs t₀).getD (.map [])) =
                        true := by
                      cases hmk : lookupKV mkvs t₀ with
                      | none => rfl
                      | some w =>
                        simp only [Option.getD_some]
                        exact wfYaml_lookup mkvs t₀ w hm hmk
                    have hwR : wfYaml R = true := ih _ nv R hwg hwnv hu
                    simp only [wfYaml, Bool.and_eq_true]
                    exact ⟨nodupKeysB_setKey mkvs t₀ R
                        (wfYaml_map_nodup mkvs hm),
                      wfKVs_setKey mkvs t₀ R (wfYaml_map_kvs mkvs hm) hwR⟩
      | seq xs =>
        simp only [merge_pattern, if_neg hstar] at h
        simp at h
        subst h
        exact hn
      | scalar s =>
        simp only [merge_pattern, if_neg hstar] at h
        simp at h
        subst h
        exact hn

theorem merge_pattern_literal_found (token : String) (rest : List String)
    (mkvs nkvs : List (String × Yaml)) (nv : Yaml)
    (hstar : ¬ token = "*") (hnv : lookupKV nkvs token = some nv) :
    merge_pattern (token :: rest) (.map mkvs) (.map nkvs) =
      if rest.isEmpty then some (.map (setKey mkvs token nv))
      else
        (merge_pattern rest ((lookupKV mkvs token).getD (.map [])) nv).map
          fun r => .map (setKey mkvs token r) := by
  have hcc : containsKey nkvs token = true := by simp [containsKey, hnv]
  simp [merge_pattern, hstar, pyIn, hcc, hnv]

theorem merge_pattern_create :
    ∀ (r : List String) (w v : Yaml), r ≠ [] → cleanYaml w = true →
      getNestedGo w r = some v →
      merge_pattern r (createGo r v) w = some (createGo r v) := by
  intro r
  induction r with
  | nil => intro w v h _ _; exact absurd rfl h
  | cons r₀ rs ih =>
    intro w v _ hclean hres
    cases w with
    | map wkvs =>
      cases hl : lookupKV wkvs r₀ with
      | none => simp [getNestedGo, hl] at hres
      | some w' =>
        simp only [getNestedGo, hl] at hres
        obtain ⟨hkey, hw'⟩ := cleanYaml_lookup wkvs r₀ w' hclean hl
        have hstar : ¬ r₀ = "*" := by
          simp only [cleanKeyB, Bool.and_eq_true, bne_iff_ne, ne_eq] at hkey
          exact hkey.2
        have hcc : containsKey wkvs r₀ = true := by simp [containsKey, hl]
        cases rs with
        | nil =>
          simp only [getNestedGo] at hres
          have hv : w' = v := by simpa using hres
          subst hv
          simp [merge_pattern, hstar, createGo, pyIn, hcc, hl, setKey]
        | cons r₁ rs₂ =>
          have hih := ih w' v (by simp) hw' hres
          rw [show createGo (r₀ :: r₁ :: rs₂) v =
            .map [(r₀, createGo (r₁ :: rs₂) v)] from rfl]
          rw [merge_pattern_literal_found r₀ (r₁ :: rs₂) _ wkvs w' hstar hl]
          simp only [List.isEmpty_cons, Bool.false_eq_true, if_false]
          rw [show lookupKV [(r₀, createGo (r₁ :: rs₂) v)] r₀ =
            some (createGo (r₁ :: rs₂) v) from by simp [lookupKV]]
          simp only [Option.getD_some]
          rw [hih]
          simp [setKey]
    | seq xs => simp [getNestedGo] at hres
    | scalar s => simp [getNestedGo] at hres

theorem merge_pattern_idem :
    ∀ (t : List String) (m nw M : Yaml),
      (∀ tok ∈ t, dotFreeS tok = true) →
      wfYaml m = true → wfYaml nw = true → cleanYaml nw = true →
      merge_pattern t m nw = some M →
      merge_pattern t M nw = some M := by
  intro t
  induction t with
  | nil =>
    intro m nw M _ _ _ _ h
    simp only [merge_pattern] at h ⊢
    simp at h
    subst h
    rfl
  | cons t₀ ts ih =>
    intro m nw M hdf hwm hwn hcn h
    have hdfs : ∀ tok ∈ ts, dotFreeS tok = true :=
      fun tok htok => hdf tok (List.mem_cons_of_mem _ htok)
    by_cases hstar : t₀ = "*"
    · subst hstar
      cases m with
      | map mkvs =>
        cases nw with
        | map nkvs =>
          obtain ⟨kvs, hr, hgo⟩ := merge_pattern_map_eq ts mkvs nkvs M h
          subst hr
          have hwM : wfYaml (.map kvs) = true :=
            merge_pattern_wf ("*" :: ts) (.map mkvs) (.map nkvs) _ hwm hwn h
          have hndk : nodupKeysB kvs = true := wfYaml_map_nodup kvs hwM
          have hndn : nodupKeysB nkvs = true := wfYaml_map_nodup nkvs hwn
          simp only [merge_pattern, if_pos rfl]
          have hu2 : unionKeys kvs nkvs =
              kvs.map Prod.fst ++
                (nkvs.map Prod.fst).filter
                  (fun k2 => !(kvs.map Prod.fst).contains k2) := by
            unfold unionKeys
            exact unionKeysAux_eq_append _ _ ((nodupKeysB_iff nkvs).mp hndn)
          rw [hu2]
          have hdropped : ∀ k2 ∈ (nkvs.map Prod.fst).filter
              (fun k2 => !(kvs.map Prod.fst).contains k2),
              lookupKV kvs k2 = none ∧ ts.isEmpty = false ∧
              truthyOpt (get_nested_value (.map nkvs)
                (k2 ++ "." ++ pyJoin ts)) = false := by
            intro k2 hk2
            rw [List.mem_filter] at hk2
            obtain ⟨hkn, hknot⟩ := hk2
            have hnotin : k2 ∉ kvs.map Prod.fst := by simpa using hknot
            have hlkvs : lookupKV kvs k2 = none := by
              cases hc : lookupKV kvs k2 with
              | none => rfl
              | some u =>
                have : k2 ∈ kvs.map Prod.fst :=
                  List.mem_map.mpr ⟨(k2, u), lookupKV_mem kvs k2 u hc, rfl⟩
                exact absurd this hnotin
            have hkk : keyKeptB mkvs nkvs ts k2 = false := by
              cases hc2 : keyKeptB mkvs nkvs ts k2 with
              | false => rfl
              | true =>
                have hmem2 : k2 ∈ kvs.map Prod.fst := by
                  rw [mergeKeysGo_keys _ _ _ _ _ kvs hgo]
                  exact List.mem_filter.mpr
                    ⟨mem_unionKeys_right _ _ _ hkn, hc2⟩
                exact absurd hmem2 hnotin
            simp only [keyKeptB, Bool.or_eq_false_iff] at hkk
            obtain ⟨hk1, hk2c⟩ := hkk
            have hckn : containsKey nkvs k2 = true :=
              (containsKey_iff_mem nkvs k2).mpr hkn
            cases hre : ts.isEmpty with
            | true =>
              simp only [hre, if_true] at hk2c
              rw [hckn] at hk2c
              exact absurd hk2c (by simp)
            | false =>
              simp only [hre, Bool.false_eq_true, if_false] at hk2c
              exact ⟨hlkvs, rfl, hk2c⟩
          have hskip : mergeKeysGo (merge_pattern ts) kvs nkvs ts
              ((nkvs.map Prod.fst).filter
                (fun k2 => !(kvs.map Prod.fst).contains k2)) = some [] :=
            mergeKeysGo_skip_all _ _ _ _ _ hdropped
          have hentries : ∀ p ∈ kvs,
              keyEntry (merge_pattern ts) kvs nkvs ts p.1 = some p.2 := by
            rintro ⟨k, u⟩ hp
            have hlu : lookupKV kvs k = some u :=
              lookup_of_mem_nodup kvs k u hndk hp
            have hmemk : k ∈ unionKeys mkvs nkvs := by
              by_contra hnot
              have hlk := mergeKeysGo_lookup _ _ _ _ _ kvs hgo k
              rw [if_neg hnot] at hlk
              rw [hlk] at hlu
              simp at hlu
            have hprov := mergeKeysGo_lookup _ _ _ _ _ kvs hgo k
            rw [if_pos hmemk, hlu] at hprov
            simp only [keyEntry] at hprov ⊢
            simp only [hlu]
            cases hnk : lookupKV nkvs k with
            | none => simp only [hnk]
            | some nv =>
              simp only [hnk]
              simp only [hnk] at hprov
              cases hmk : lookupKV mkvs k with
              | some mv =>
                simp only [hmk] at hprov
                exact ih mv nv u hdfs (wfYaml_lookup mkvs k mv hwm hmk)
                  (wfYaml_lookup nkvs k nv hwn hnk)
                  (cleanYaml_lookup nkvs k nv hcn hnk).2 hprov.symm
              | none =>
                simp only [hmk] at hprov
                cases ts with
                | nil =>
                  simp only [List.isEmpty_nil, if_true] at hprov
                  have hu : u = nv := by simpa using hprov
                  subst hu
                  rfl
                | cons a b =>
                  simp only [List.isEmpty_cons, Bool.false_eq_true,
                    if_false] at hprov
                  cases hg : get_nested_value (.map nkvs)
                      (k ++ "." ++ pyJoin (a :: b)) with
                  | none => simp [hg] at hprov
                  | some v =>
                    simp only [hg] at hprov
                    cases htr : truthy v with
                    | false => simp [htr] at hprov
                    | true =>
                      simp only [htr, if_true] at hprov
                      have hu : u = create_dict_with_field
                          (pyJoin (a :: b)) v := by
                        simpa using hprov
                      subst hu
                      have hkc := (cleanYaml_lookup nkvs k nv hcn hnk).1
                      simp only [cleanKeyB, Bool.and_eq_true] at hkc
                      have hkdf : dotFreeS k = true := hkc.1
                      have hsplit : pySplit (k ++ "." ++ pyJoin (a :: b)) =
                          k :: a :: b := by
                        rw [pySplit_append_dot k (pyJoin (a :: b)) hkdf,
                          pySplit_pyJoin (a :: b) (by simp) hdfs]
                      have hres : getNestedGo nv (a :: b) = some v := by
                        have hgv : get_nested_value (.map nkvs)
                            (k ++ "." ++ pyJoin (a :: b)) =
                            getNestedGo (.map nkvs) (k :: a :: b) := by
                          simp [get_nested_value, hsplit]
                        rw [hgv] at hg
                        simp only [getNestedGo, hnk] at hg
                        exact hg
                      have hcreq : create_dict_with_field
                          (pyJoin (a :: b)) v = createGo (a :: b) v := by
                        simp [create_dict_with_field,
                          pySplit_pyJoin (a :: b) (by simp) hdfs]
                      rw [hcreq]
                      exact merge_pattern_create (a :: b) nv v (by simp)
                        (cleanYaml_lookup nkvs k nv hcn hnk).2 hres
          rw [mergeKeysGo_reconstruct _ _ _ _ kvs _ hentries hskip]
          rfl
        | seq ys =>
          simp only [merge_pattern, if_pos rfl] at h
          simp at h
          subst h
          exact merge_pattern_self ("*" :: ts) (.seq ys) hwn
        | scalar s =>
          simp only [merge_pattern, if_pos rfl] at h
          simp at h
          subst h
          exact merge_pattern_self ("*" :: ts) (.scalar s) hwn
      | seq xs =>
        cases nw with
        | seq ys =>
          simp only [merge_pattern, if_pos rfl] at h
          cases hg : mergeSeqGo (merge_pattern ts) xs ys with
          | none => rw [hg] at h; simp at h
          | some zs =>
            rw [hg] at h
            have hM : M = .seq zs := (Option.some_inj.mp h).symm
            subst hM
            have hwx : wfSeq xs = true := wfYaml_seq_elems xs hwm
            have hwy : wfSeq ys = true := wfYaml_seq_elems ys hwn
            have hcy : cleanSeq ys = true := cleanYaml_seq_elems ys hcn
            simp only [merge_pattern, if_pos rfl]
            rw [mergeSeqGo_idem (merge_pattern ts) xs ys zs
              (fun a b c ha hb hab =>
                ih a b c hdfs (wfSeq_mem xs a hwx ha)
                  (wfSeq_mem ys b hwy hb) (cleanSeq_mem ys b hcy hb) hab)
              (fun q hq =>
                merge_pattern_self ts q (wfSeq_mem ys q hwy hq)) hg]
            rfl
        | map nkvs =>
          simp only [merge_pattern, if_pos rfl] at h
          simp at h
          subst h
          exact merge_pattern_self ("*" :: ts) (.map nkvs) hwn
        | scalar s =>
          simp only [merge_pattern, if_pos rfl] at h
          simp at h
          subst h
          exact merge_pattern_self ("*" :: ts) (.scalar s) hwn
      | scalar s =>
        cases nw with
        | map nkvs =>
          simp only [merge_pattern, if_pos rfl] at h
          simp at h
          subst h
          exact merge_pattern_self ("*" :: ts) (.map nkvs) hwn
        | seq ys =>
          simp only [merge_pattern, if_pos rfl] at h
          simp at h
          subst h
          exact merge_pattern_self ("*" :: ts) (.seq ys) hwn
        | scalar s₂ =>
          simp only [merge_pattern, if_pos rfl] at h
          simp at h
          subst h
          exact merge_pattern_self ("*" :: ts) (.scalar s₂) hwn
    · cases m with
      | map mkvs =>
        cases nw with
        | map nkvs =>
          cases hnv : lookupKV nkvs t₀ with
          | none =>
            have hcc : containsKey nkvs t₀ = false := by
              simp [containsKey, hnv]
            simp only [merge_pattern, if_neg hstar, pyIn, hcc] at h
            simp at h
            subst h
            simp [merge_pattern, hstar, pyIn, hcc]
          | some nv =>
            rw [merge_pattern_literal_found t₀ ts mkvs nkvs nv hstar hnv]
              at h
            have hwnv : wfYaml nv = true := wfYaml_lookup nkvs t₀ nv hwn hnv
            have hcnv : cleanYaml nv = true :=
              (cleanYaml_lookup nkvs t₀ nv hcn hnv).2
            cases hre : ts.isEmpty with
            | true =>
              rw [hre] at h
              simp only [if_true] at h
              have hM : M = .map (setKey mkvs t₀ nv) :=
                (Option.some_inj.mp h).symm
              subst hM
              rw [merge_pattern_literal_found t₀ ts (setKey mkvs t₀ nv)
                nkvs nv hstar hnv]
              simp [hre, setKey_setKey]
            | false =>
              rw [hre] at h
              simp only [Bool.false_eq_true, if_false] at h
              cases hu : merge_pattern ts
                  ((lookupKV mkvs t₀).getD (.map [])) nv with
              | none => rw [hu] at h; simp at h
              | some R =>
                rw [hu] at h
                have hM : M = .map (setKey mkvs t₀ R) := by
                  have h2 : some (Yaml.map (setKey mkvs t₀ R)) = some M := h
                  exact (Option.some_inj.mp h2).symm
                subst hM
                have hwg : wfYaml ((lookupKV mkvs t₀).getD (.map [])) =
                    true := by
                  cases hmk : lookupKV mkvs t₀ with
                  | none => rfl
                  | some w =>
                    simp only [Option.getD_some]
                    exact wfYaml_lookup mkvs t₀ w hwm hmk
                have hRid : merge_pattern ts R nv = some R :=
                  ih _ nv R hdfs hwg hwnv hcnv hu
                rw [merge_pattern_literal_found t₀ ts (setKey mkvs t₀ R)
                  nkvs nv hstar hnv]
                simp only [hre, Bool.false_eq_true, if_false,
                  lookupKV_setKey_self, Option.getD_some, hRid]
                simp [setKey_setKey]
        | seq ys =>
          simp only [merge_pattern, if_neg hstar] at h
          cases hb : pyIn t₀ (.seq ys) with
          | none => simp [pyIn] at hb
          | some b =>
            simp only [hb] at h
            cases b with
            | true => simp at h
            | false =>
              simp only [Option.some_inj] at h
              subst h
              simp only [merge_pattern, if_neg hstar, hb]
        | scalar sc =>
          simp only [merge_pattern, if_neg hstar] at h
          cases hb : pyIn t₀ (.scalar sc) with
          | none => simp only [hb] at h; simp at h
          | some b =>
            simp only [hb] at h
            cases b with
            | true => simp at h
            | false =>
              simp only [Option.some_inj] at h
              subst h
              simp only [merge_pattern, if_neg hstar, hb]
      | seq xs =>
        simp only [merge_pattern, if_neg hstar] at h
        simp at h
        subst h
        exact merge_pattern_self (t₀ :: ts) nw hwn
      | scalar s =>
        simp only [merge_pattern, if_neg hstar] at h
        simp at h
        subst h
        exact merge_pattern_self (t₀ :: ts) nw hwn

theorem merge_pattern_protects :
    ∀ (t : List String) (merged nw : Yaml) (p : List String) (v r : Yaml),
      lookupPath merged p = some v →
      protects nw t p = true →
      merge_pattern t merged nw = some r →
      lookupPath r p = some v := by
  intro t
  induction t with
  | nil =>
    intro merged nw p v r hv hp _
    cases p with
    | nil => simp [protects] at hp
    | cons p₀ ps => simp [protects] at hp
  | cons t₀ ts ih =>
    intro merged nw p v r hv hp hm
    cases p with
    | nil => simp [protects] at hp
    | cons p₀ ps =>
      cases merged with
      | seq xs => simp [lookupPath] at hv
      | scalar s => simp [lookupPath] at hv
      | map mkvs =>
        cases hw : lookupKV mkvs p₀ with
        | none => simp [lookupPath, hw] at hv
        | some w =>
          simp only [lookupPath, hw] at hv
          by_cases hstar : t₀ = "*"
          · subst hstar
            cases nw with
            | seq ys => simp [protects] at hp
            | scalar s => simp [protects] at hp
            | map nkvs =>
              obtain ⟨kvs, hr, hgo⟩ := merge_pattern_map_eq ts mkvs nkvs r hm
              subst hr
              have hqu : p₀ ∈ unionKeys mkvs nkvs :=
                mem_unionKeys_left _ _ _
                  ((containsKey_iff_mem mkvs p₀).mp (by simp [containsKey, hw]))
              have hlk := mergeKeysGo_lookup _ mkvs nkvs ts _ kvs hgo p₀
              rw [if_pos hqu] at hlk
              cases hnv : lookupKV nkvs p₀ with
              | none =>
                have hke : keyEntry (merge_pattern ts) mkvs nkvs ts p₀ =
                    some w := by
                  simp [keyEntry, hw, hnv]
                rw [hke] at hlk
                simp only [lookupPath, hlk]
                exact hv
              | some nv =>
                simp only [protects, if_pos rfl, hnv] at hp
                have hke : keyEntry (merge_pattern ts) mkvs nkvs ts p₀ =
                    merge_pattern ts w nv := by
                  simp [keyEntry, hw, hnv]
                rw [hke] at hlk
                have hmem : p₀ ∈ kvs.map Prod.fst := by
                  rw [mergeKeysGo_keys _ _ _ _ _ kvs hgo]
                  exact List.mem_filter.mpr
                    ⟨hqu, by simp [keyKeptB, containsKey, hw]⟩
                have hsome : (lookupKV kvs p₀).isSome = true := by
                  have := (containsKey_iff_mem kvs p₀).mpr hmem
                  simpa [containsKey] using this
                cases hu : merge_pattern ts w nv with
                | none =>
                  rw [hu] at hlk
                  rw [hlk] at hsome
                  simp at hsome
                | some u =>
                  rw [hu] at hlk
                  simp only [lookupPath, hlk]
                  exact ih w nv ps v u hv hp hu
          · by_cases hteq : t₀ = p₀
            · subst hteq
              cases nw with
              | map nkvs =>
                cases hnv : lookupKV nkvs t₀ with
                | none =>
                  have hone : merge_pattern (t₀ :: ts) (.map mkvs)
                      (.map nkvs) = some (.map mkvs) := by
                    simp [merge_pattern, hstar, pyIn, containsKey, hnv]
                  rw [hone] at hm
                  have hr : r = .map mkvs := (Option.some_inj.mp hm).symm
                  subst hr
                  simp only [lookupPath, hw]
                  exact hv
                | some nv =>
                  simp only [protects, if_neg hstar, if_pos rfl, hnv] at hp
                  have hne : ts ≠ [] := by
                    intro hcontra
                    subst hcontra
                    cases ps <;> simp [protects] at hp
                  have hre : ts.isEmpty = false := by
                    cases ts with
                    | nil => exact absurd rfl hne
                    | cons a b => rfl
                  simp only [merge_pattern, if_neg hstar, pyIn, containsKey,
                    hnv, Option.isSome_some, hre, Bool.false_eq_true,
                    if_false, hw, Option.getD_some] at hm
                  cases hu : merge_pattern ts w nv with
                  | none => simp [hu] at hm
                  | some R =>
                    rw [hu] at hm
                    have hm2 : some (Yaml.map (setKey mkvs t₀ R)) = some r :=
                      hm
                    have hr : r = .map (setKey mkvs t₀ R) :=
                      (Option.some_inj.mp hm2).symm
                    subst hr
                    simp only [lookupPath, lookupKV_setKey_self]
                    exact ih w nv ps v R hv hp hu
              | seq ys =>
                simp only [merge_pattern, if_neg hstar] at hm
                cases hb : pyIn t₀ (.seq ys) with
                | none => simp [pyIn] at hb
                | some b =>
                  simp only [hb] at hm
                  cases b with
                  | false =>
                    simp only [Option.some_inj] at hm
                    subst hm
                    simp only [lookupPath, hw]
                    exact hv
                  | true => simp at hm
              | scalar sc =>
                simp only [merge_pattern, if_neg hstar] at hm
                cases hb : pyIn t₀ (.scalar sc) with
                | none =>
                  simp only [hb] at hm
                  simp at hm
                | some b =>
                  simp only [hb] at hm
                  cases b with
                  | false =>
                    simp only [Option.some_inj] at hm
                    subst hm
                    simp only [lookupPath, hw]
                    exact hv
                  | true => simp at hm
            · simp only [merge_pattern, if_neg hstar] at hm
              cases hb : pyIn t₀ nw with
              | none =>
                simp only [hb] at hm
                simp at hm
              | some b =>
                simp only [hb] at hm
                cases b with
                | false =>
                  simp only [Option.some_inj] at hm
                  subst hm
                  simp only [lookupPath, hw]
                  exact hv
                | true =>
                  cases nw with
                  | seq ys => simp at hm
                  | scalar sc => simp at hm
                  | map nkvs =>
                    cases hnv : lookupKV nkvs t₀ with
                    | none => simp [hnv] at hm
                    | some nv =>
                      simp only [hnv] at hm
                      cases hre : ts.isEmpty with
                      | true =>
                        simp only [hre, if_true] at hm
                        simp only [Option.some_inj] at hm
                        subst hm
                        simp only [lookupPath,
                          lookupKV_setKey_other mkvs t₀ p₀ nv
                            (fun hh => hteq hh.symm), hw]
                        exact hv
                      | false =>
                        simp only [hre, Bool.false_eq_true, if_false] at hm
                        cases hu : merge_pattern ts
                            ((lookupKV mkvs t₀).getD (.map [])) nv with
                        | none => simp [hu] at hm
                        | some R =>
                          rw [hu] at hm
                          have hm2 : some (Yaml.map (setKey mkvs t₀ R)) =
                              some r := hm
                          have hr : r = .map (setKey mkvs t₀ R) :=
                            (Option.some_inj.mp hm2).symm
                          subst hr
                          simp only [lookupPath,
                            lookupKV_setKey_other mkvs t₀ p₀ R
                              (fun hh => hteq hh.symm), hw]
                          exact hv

/-! ## Claim theorems -/

/-- C9 (counterexample): the merge is not idempotent.  Two failures: (1) a
single pattern `*.t` with a new mapping whose key `"a.b"` contains a dot —
the first pass synthesizes `{"a.b": {"t": 9}}` from the re-split path
`a.b.t`, and the second pass, finding `"a.b"` on both sides, overwrites the
leaf with `new["a.b"]["t"] = 1`; (2) even with clean keys, two patterns
interact: `*.a.b` drops the new-only key `k` (falsy leaf `0`), `*.t`
then synthesizes `{"t": 9}` under `k`, and the second application of
`*.a.b` descends into that synthesized mapping and adds the `a.b` branch. -/
theorem claim_C9_counterexample :
    (merge_yaml ["*.t"] (.map [("z", .scalar (.int 0))])
        (.map [("a.b", .map [("t", .scalar (.int 1))]),
               ("a", .map [("b", .map [("t", .scalar (.int 9))])])]) =
      some (.map [("z", .scalar (.int 0)),
                  ("a.b", .map [("t", .scalar (.int 9))])]) ∧
     merge_yaml ["*.t"]
        (.map [("z", .scalar (.int 0)),
               ("a.b", .map [("t", .scalar (.int 9))])])
        (.map [("a.b", .map [("t", .scalar (.int 1))]),
               ("a", .map [("b", .map [("t", .scalar (.int 9))])])]) =
      some (.map [("z", .scalar (.int 0)),
                  ("a.b", .map [("t", .scalar (.int 1))])]) ∧
     (Yaml.map [("z", .scalar (.int 0)),
                ("a.b", .map [("t", .scalar (.int 1))])]) ≠
       (Yaml.map [("z", .scalar (.int 0)),
                  ("a.b", .map [("t", .scalar (.int 9))])])) ∧
    (merge_yaml ["*.a.b", "*.t"] (.map [("q", .scalar (.int 0))])
        (.map [("k", .map [("a", .map [("b", .scalar (.int 0))]),
                           ("t", .scalar (.int 9))])]) =
      some (.map [("q", .scalar (.int 0)),
                  ("k", .map [("t", .scalar (.int 9))])]) ∧
     merge_yaml ["*.a.b", "*.t"]
        (.map [("q", .scalar (.int 0)),
               ("k", .map [("t", .scalar (.int 9))])])
        (.map [("k", .map [("a", .map [("b", .scalar (.int 0))]),
                           ("t", .scalar (.int 9))])]) =
      some (.map [("q", .scalar (.int 0)),
                  ("k", .map [("t", .scalar (.int 9)),
                              ("a", .map [("b", .scalar (.int 0))])])]) ∧
     (Yaml.map [("q", .scalar (.int 0)),
                ("k", .map [("t", .scalar (.int 9)),
                            ("a", .map [("b", .scalar (.int 0))])])]) ≠
       (Yaml.map [("q", .scalar (.int 0)),
                  ("k", .map [("t", .scalar (.int 9))])])) :=
  ⟨⟨rfl, rfl, by simp⟩, ⟨rfl, rfl, by simp⟩⟩

/-- C9 (amended): the merge is idempotent for a single pattern on trees a
Python/YAML decoder can produce, provided every mapping key of the new tree
contains no dot and is not `"*"`: if `merge_yaml [pat] old new = some M`
then `merge_yaml [pat] M new = some M`.  Dotted keys break it because the
engine joins a new-only key with the remaining tokens and re-splits on
dots, and a second pattern can break it even with clean keys by
synthesizing a new-only branch that the first pattern descends into on the
second application (see the counterexample). -/
theorem claim_C9_idempotent_amended (pat : String) (old nw M : Yaml)
    (hwo : wfYaml old = true) (hwn : wfYaml nw = true)
    (hcn : cleanYaml nw = true)
    (h : merge_yaml [pat] old nw = some M) :
    merge_yaml [pat] M nw = some M := by
  simp only [merge_yaml, List.foldlM] at h ⊢
  cases ha : merge_pattern (pySplit pat) old nw with
  | none => rw [ha] at h; simp at h
  | some a =>
    rw [ha] at h
    have haM : a = M := by simpa using h
    subst haM
    rw [merge_pattern_idem (pySplit pat) old nw a
      (pySplit_mem_dotfree pat) hwo hwn hcn ha]
    rfl

theorem claim_C9_witness :
    merge_yaml ["models.*.type"]
        (.map [("models",
          .map [("a", .map [("type", .scalar (.str "A"))]),
                ("b", .map [("type", .scalar (.str "B2"))]),
                ("c", .map [("type", .scalar (.str "C"))])])])
        (.map [("models", .map [("b", .map [("type", .scalar (.str "B2"))]),
                                ("c", .map [("type", .scalar (.str "C"))])])]) =
      some (.map [("models",
        .map [("a", .map [("type", .scalar (.str "A"))]),
              ("b", .map [("type", .scalar (.str "B2"))]),
              ("c", .map [("type", .scalar (.str "C"))])])]) :=
  claim_C9_idempotent_amended "models.*.type"
    (.map [("models", .map [("a", .map [("type", .scalar (.str "A"))]),
                            ("b", .map [("type", .scalar (.str "B"))])])])
    (.map [("models", .map [("b", .map [("type", .scalar (.str "B2"))]),
                            ("c", .map [("type", .scalar (.str "C"))])])])
    (.map [("models",
      .map [("a", .map [("type", .scalar (.str "A"))]),
            ("b", .map [("type", .scalar (.str "B2"))]),
            ("c", .map [("type", .scalar (.str "C"))])])])
    (by decide) (by decide) (by decide) rfl

/-- C10: round-trip of the two helpers: for every dotted path string and
every value, `get_nested_value (create_dict_with_field path value) path`
returns exactly that value. -/
theorem claim_C10_roundtrip (path : String) (v : Yaml) :
    get_nested_value (create_dict_with_field path v) path = some v := by
  unfold get_nested_value create_dict_with_field
  exact getNestedGo_createGo (pySplit path) v (pySplit_ne_nil path)

/-- C2: contrary to the claim, `merge_pattern` is not total: at a literal
token with the merged node a mapping and the new node a number, the Python
`token in new` membership test raises `TypeError` (modelled by `none`).
The input is reachable from `merge_yaml` with ordinary dictionaries:
`merge_yaml({"a": {"b": 1}}, {"a": 5})` under the pattern `"a.b"` raises. -/
theorem claim_C2_merge_raises :
    merge_pattern ["b"] (.map [("b", .scalar (.int 1))]) (.scalar (.int 5)) =
      none ∧
    merge_yaml ["a.b"] (.map [("a", .map [("b", .scalar (.int 1))])])
      (.map [("a", .scalar (.int 5))]) = none := by
  constructor <;> rfl

/-- C5: for a terminal literal token present in the new mapping, the merged
mapping's value at that key is overwritten wholesale with the new value,
sibling keys and key order untouched; in particular
`mergeByPatterns({"a":{"x":1}}, {"a":{"x":2,"y":3}}, ["a"])` yields
`{"a":{"x":2,"y":3}}`. -/
theorem claim_C5_terminal_literal_replace (m n : List (String × Yaml))
    (k : String) (w : Yaml) (hk : k ≠ "*") (hw : lookupKV n k = some w) :
    merge_pattern [k] (.map m) (.map n) = some (.map (setKey m k w)) ∧
    lookupKV (setKey m k w) k = some w ∧
    (∀ k', k' ≠ k → lookupKV (setKey m k w) k' = lookupKV m k') ∧
    (containsKey m k = true →
      (setKey m k w).map Prod.fst = m.map Prod.fst) ∧
    merge_yaml ["a"] (.map [("a", .map [("x", .scalar (.int 1))])])
        (.map [("a", .map [("x", .scalar (.int 2)),
                           ("y", .scalar (.int 3))])]) =
      some (.map [("a", .map [("x", .scalar (.int 2)),
                              ("y", .scalar (.int 3))])]) := by
  refine ⟨?_, lookupKV_setKey_self m k w,
    fun k' h => lookupKV_setKey_other m k k' w h,
    fun h => setKey_keys_of_mem m k w h, rfl⟩
  simp [merge_pattern, hk, pyIn, containsKey, hw]

theorem claim_C5_witness :
    merge_pattern ["a"] (.map [("a", .scalar (.int 1))])
        (.map [("a", .scalar (.int 2))]) =
      some (.map [("a", .scalar (.int 2))]) :=
  (claim_C5_terminal_literal_replace [("a", .scalar (.int 1))]
    [("a", .scalar (.int 2))] "a" (.scalar (.int 2))
    (by decide) rfl).1

theorem mergeSeqGo_length (f : Yaml → Yaml → Option Yaml) :
    ∀ xs ys zs, mergeSeqGo f xs ys = some zs →
      zs.length = max xs.length ys.length := by
  intro xs
  induction xs with
  | nil =>
    intro ys zs h
    simp only [mergeSeqGo, Option.some_inj] at h
    simp [← h]
  | cons x xs ih =>
    intro ys zs h
    cases ys with
    | nil =>
      simp only [mergeSeqGo, Option.some_inj] at h
      simp [← h]
    | cons y ys =>
      simp only [mergeSeqGo] at h
      cases hfv : f x y with
      | none => simp [hfv] at h
      | some v =>
        cases hrec : mergeSeqGo f xs ys with
        | none => simp [hfv, hrec] at h
        | some vs =>
          simp only [hfv, hrec] at h
          simp at h
          subst h
          simp [ih ys vs hrec, Nat.succ_max_succ]

theorem mergeSeqGo_both (f : Yaml → Yaml → Option Yaml) :
    ∀ xs ys zs i, mergeSeqGo f xs ys = some zs →
      (h1 : i < xs.length) → (h2 : i < ys.length) →
      ∃ z, f xs[i] ys[i] = some z ∧ zs[i]? = some z := by
  intro xs
  induction xs with
  | nil => intro ys zs i h h1; simp at h1
  | cons x xs ih =>
    intro ys zs i h h1 h2
    cases ys with
    | nil => simp at h2
    | cons y ys =>
      simp only [mergeSeqGo] at h
      cases hfv : f x y with
      | none => simp [hfv] at h
      | some v =>
        cases hrec : mergeSeqGo f xs ys with
        | none => simp [hfv, hrec] at h
        | some vs =>
          simp only [hfv, hrec] at h
          simp at h
          subst h
          cases i with
          | zero => exact ⟨v, hfv, by simp⟩
          | succ j =>
            obtain ⟨z, hz, hz2⟩ := ih ys vs j hrec
              (Nat.lt_of_succ_lt_succ h1) (Nat.lt_of_succ_lt_succ h2)
            exact ⟨z, hz, by simpa using hz2⟩

theorem mergeSeqGo_left (f : Yaml → Yaml → Option Yaml) :
    ∀ xs ys zs i, mergeSeqGo f xs ys = some zs →
      ys.length ≤ i → i < xs.length → zs[i]? = xs[i]? := by
  intro xs
  induction xs with
  | nil => intro ys zs i h h1 h2; simp at h2
  | cons x xs ih =>
    intro ys zs i h h1 h2
    cases ys with
    | nil =>
      simp only [mergeSeqGo, Option.some_inj] at h
      simp [← h]
    | cons y ys =>
      simp only [mergeSeqGo] at h
      cases hfv : f x y with
      | none => simp [hfv] at h
      | some v =>
        cases hrec : mergeSeqGo f xs ys with
        | none => simp [hfv, hrec] at h
        | some vs =>
          simp only [hfv, hrec] at h
          simp at h
          subst h
          cases i with
          | zero => simp at h1
          | succ j =>
            have := ih ys vs j hrec (Nat.le_of_succ_le_succ h1)
              (Nat.lt_of_succ_lt_succ h2)
            simpa using this

theorem mergeSeqGo_right (f : Yaml → Yaml → Option Yaml) :
    ∀ xs ys zs i, mergeSeqGo f xs ys = some zs →
      xs.length ≤ i → i < ys.length → zs[i]? = ys[i]? := by
  intro xs
  induction xs with
  | nil =>
    intro ys zs i h h1 h2
    simp only [mergeSeqGo, Option.some_inj] at h
    simp [← h]
  | cons x xs ih =>
    intro ys zs i h h1 h2
    cases ys with
    | nil => simp at h2
    | cons y ys =>
      simp only [mergeSeqGo] at h
      cases hfv : f x y with
      | none => simp [hfv] at h
      | some v =>
        cases hrec : mergeSeqGo f xs ys with
        | none => simp [hfv, hrec] at h
        | some vs =>
          simp only [hfv, hrec] at h
          simp at h
          subst h
          cases i with
          | zero => simp at h1
          | succ j =>
            have := ih ys vs j hrec (Nat.le_of_succ_le_succ h1)
              (Nat.lt_of_succ_lt_succ h2)
            simpa using this

theorem merge_pattern_seq_eq (rest : List String) (xs ys : List Yaml)
    (zs : List Yaml)
    (h : merge_pattern ("*" :: rest) (.seq xs) (.seq ys) = some (.seq zs)) :
    mergeSeqGo (merge_pattern rest) xs ys = some zs := by
  simp only [merge_pattern, if_pos rfl] at h
  cases hg : mergeSeqGo (merge_pattern rest) xs ys with
  | none => simp [hg] at h
  | some ws =>
    simp only [hg] at h
    simp at h
    subst h
    rfl

/-- C7: a wildcard token over two sequences merges positionally up to the
longer length: indices present in both recurse with the remaining tokens,
indices present in only one sequence take that side's element verbatim;
in particular old `[1,2,3]` versus new `[9,9]` with no remaining tokens
yields `[9,9,3]`. -/
theorem claim_C7_wildcard_sequences (rest : List String) (xs ys zs : List Yaml)
    (h : merge_pattern ("*" :: rest) (.seq xs) (.seq ys) = some (.seq zs)) :
    zs.length = max xs.length ys.length ∧
    (∀ i, (h1 : i < xs.length) → (h2 : i < ys.length) →
      ∃ z, merge_pattern rest xs[i] ys[i] = some z ∧ zs[i]? = some z) ∧
    (∀ i, ys.length ≤ i → i < xs.length → zs[i]? = xs[i]?) ∧
    (∀ i, xs.length ≤ i → i < ys.length → zs[i]? = ys[i]?) ∧
    merge_pattern ["*"]
        (.seq [.scalar (.int 1), .scalar (.int 2), .scalar (.int 3)])
        (.seq [.scalar (.int 9), .scalar (.int 9)]) =
      some (.seq [.scalar (.int 9), .scalar (.int 9), .scalar (.int 3)]) := by
  have hg := merge_pattern_seq_eq rest xs ys zs h
  exact ⟨mergeSeqGo_length _ xs ys zs hg,
    fun i h1 h2 => mergeSeqGo_both _ xs ys zs i hg h1 h2,
    fun i h1 h2 => mergeSeqGo_left _ xs ys zs i hg h1 h2,
    fun i h1 h2 => mergeSeqGo_right _ xs ys zs i hg h1 h2, rfl⟩

theorem claim_C7_witness :
    merge_pattern ["*"]
        (.seq [.scalar (.int 1), .scalar (.int 2), .scalar (.int 3)])
        (.seq [.scalar (.int 9), .scalar (.int 9)]) =
      some (.seq [.scalar (.int 9), .scalar (.int 9), .scalar (.int 3)]) :=
  (claim_C7_wildcard_sequences []
    [.scalar (.int 1), .scalar (.int 2), .scalar (.int 3)]
    [.scalar (.int 9), .scalar (.int 9)]
    [.scalar (.int 9), .scalar (.int 9), .scalar (.int 3)] rfl).2.2.2.2

/-- C8: `merge_yaml` applies the patterns strictly in the given order, each
pattern operating on the result of the previous ones; on the concrete
overlap `old = {"a":{"keep":1,"x":1}}`, `new = {"a":{"x":2}}` the pattern
list `["a.x", "a"]` ends with the later pattern's wholesale replacement
`{"a":{"x":2}}`, while `["a.x"]` alone keeps the sibling key. -/
theorem claim_C8_patterns_in_order :
    (∀ (ks : List String) (p : String) (old new : Yaml),
      merge_yaml (ks ++ [p]) old new =
        (merge_yaml ks old new).bind
          (fun m => merge_pattern (pySplit p) m new)) ∧
    merge_yaml ["a.x", "a"]
        (.map [("a", .map [("keep", .scalar (.int 1)),
                           ("x", .scalar (.int 1))])])
        (.map [("a", .map [("x", .scalar (.int 2))])]) =
      some (.map [("a", .map [("x", .scalar (.int 2))])]) ∧
    merge_yaml ["a.x"]
        (.map [("a", .map [("keep", .scalar (.int 1)),
                           ("x", .scalar (.int 1))])])
        (.map [("a", .map [("x", .scalar (.int 2))])]) =
      some (.map [("a", .map [("keep", .scalar (.int 1)),
                              ("x", .scalar (.int 2))])]) := by
  refine ⟨fun ks p old new => ?_, rfl, rfl⟩
  induction ks generalizing old with
  | nil => simp [merge_yaml, List.foldlM]
  | cons k ks ih =>
    simp only [merge_yaml, List.cons_append, List.foldlM] at ih ⊢
    cases merge_pattern (pySplit k) old new with
    | none => simp
    | some a => exact ih a

/-- C1 (counterexample): a key path not covered by any pattern — not even as
a prefix, in the generous sense that only a definite token mismatch makes it
uncovered — can still be destroyed: under the pattern `"k.*.z"` the path
`k.m.b` mismatches at the literal `z`, yet the wildcard token is reached
with the new node a scalar, which replaces the whole merged subtree with the
new one and erases the value at `k.m.b`. -/
theorem claim_C1_counterexample :
    pathCovered ["k", "m", "b"] (pySplit "k.*.z") = false ∧
    lookupPath (.map [("k", .map [("m", .map [("b", .scalar (.int 1))])])])
      ["k", "m", "b"] = some (.scalar (.int 1)) ∧
    merge_yaml ["k.*.z"]
        (.map [("k", .map [("m", .map [("b", .scalar (.int 1))])])])
        (.map [("k", .scalar (.int 7))]) =
      some (.map [("k", .scalar (.int 7))]) ∧
    lookupPath (.map [("k", .scalar (.int 7))]) ["k", "m", "b"] = none := by
  refine ⟨by decide, rfl, rfl, rfl⟩

/-- C1 (amended): for every old tree, new tree and ordered pattern list, and
for every key path of the old tree that every pattern provably leaves alone
relative to the new tree (`protects`: at each level a literal token differs
from the path segment, or descent stops with the merged side kept, or
descent continues compatibly — at a wildcard the new node must be a mapping
in which the path's segment is absent or protected deeper), the tree
returned by `merge_yaml`, when no exception is raised, has at that path a
value deep-equal to the old tree's value there, mapping key order included.
The claim's bare "not covered, even as a prefix" condition is insufficient
(see the counterexample): it must be strengthened to account for wildcard
tokens reached where the new node is not a mapping, which replace the whole
merged subtree wholesale. -/
theorem claim_C1_untouched_amended (patterns : List String)
    (old nw : Yaml) (p : List String) (v M : Yaml)
    (hv : lookupPath old p = some v)
    (hprot : ∀ pat ∈ patterns, protects nw (pySplit pat) p = true)
    (h : merge_yaml patterns old nw = some M) :
    lookupPath M p = some v := by
  induction patterns generalizing old with
  | nil =>
    simp only [merge_yaml, List.foldlM] at h
    have hMe : old = M := by simpa using h
    subst hMe
    exact hv
  | cons pat pats ih =>
    simp only [merge_yaml, List.foldlM] at h
    cases ha : merge_pattern (pySplit pat) old nw with
    | none => rw [ha] at h; simp at h
    | some a =>
      rw [ha] at h
      have hva : lookupPath a p = some v :=
        merge_pattern_protects (pySplit pat) old nw p v a hv
          (hprot pat (List.mem_cons_self pat pats)) ha
      exact ih a hva (fun q hq => hprot q (List.mem_cons_of_mem pat hq)) h

theorem claim_C1_witness :
    lookupPath (.map [("a", .map [("x", .scalar (.int 1)),
                                  ("y", .scalar (.int 2))])])
      ["a", "x"] = some (.scalar (.int 1)) :=
  claim_C1_untouched_amended ["a.y"]
    (.map [("a", .map [("x", .scalar (.int 1))])])
    (.map [("a", .map [("y", .scalar (.int 2))])])
    ["a", "x"] (.scalar (.int 1))
    (.map [("a", .map [("x", .scalar (.int 1)),
                       ("y", .scalar (.int 2))])])
    rfl
    (by
      intro pat hpat
      simp only [List.mem_singleton] at hpat
      subst hpat
      decide)
    rfl

/-- C3 (counterexample): the claim that the result mapping's keys are exactly
all merged keys followed by all new-only keys fails: with remaining tokens
`["x"]`, the new-only key `"b"` resolves to the falsy value `0` and is
dropped, so the result keys are `["a"]`, not `["a", "b"]`. -/
theorem claim_C3_counterexample :
    merge_pattern ["*", "x"] (.map [("a", .scalar (.int 1))])
        (.map [("b", .map [("x", .scalar (.int 0))])]) =
      some (.map [("a", .scalar (.int 1))]) ∧
    ¬ ([("a", Yaml.scalar (.int 1))].map Prod.fst =
        [("a", Yaml.scalar (.int 1))].map Prod.fst ++
          ([("b", Yaml.map [("x", Yaml.scalar (.int 0))])].map
              Prod.fst).filter (fun k =>
            !([("a", Yaml.scalar (.int 1))].map Prod.fst).contains k)) :=
  ⟨rfl, by decide⟩

/-- C3 (amended): at a wildcard token over two mappings the result mapping's
keys are all keys of the merged node in their original order, followed by
those keys unique to the new node, in their order of appearance, that are
established (with remaining tokens, a new-only key is kept only when the
joined remaining path resolves in the new mapping to a truthy value); a key
present in both recurses with the remaining tokens and a key present only in
the merged node keeps its value unchanged.  The `models` example of the
claim holds as stated. -/
theorem claim_C3_wildcard_mapping_amended (rest : List String)
    (m n : List (String × Yaml)) (r : Yaml)
    (hnd : (n.map Prod.fst).Nodup)
    (h : merge_pattern ("*" :: rest) (.map m) (.map n) = some r) :
    (∃ kvs, r = .map kvs ∧
      kvs.map Prod.fst =
        m.map Prod.fst ++
          (n.map Prod.fst).filter (fun k =>
            !containsKey m k &&
              (rest.isEmpty ||
                truthyOpt (get_nested_value (.map n)
                  (k ++ "." ++ pyJoin rest)))) ∧
      (∀ q mv nv, lookupKV m q = some mv → lookupKV n q = some nv →
        ∃ u, merge_pattern rest mv nv = some u ∧ lookupKV kvs q = some u) ∧
      (∀ q mv, lookupKV m q = some mv → lookupKV n q = none →
        lookupKV kvs q = some mv)) ∧
    merge_yaml ["models.*.type"]
        (.map [("models", .map [("a", .map [("type", .scalar (.str "A"))]),
                                ("b", .map [("type", .scalar (.str "B"))])])])
        (.map [("models", .map [("b", .map [("type", .scalar (.str "B2"))]),
                                ("c", .map [("type", .scalar (.str "C"))])])]) =
      some (.map [("models",
        .map [("a", .map [("type", .scalar (.str "A"))]),
              ("b", .map [("type", .scalar (.str "B2"))]),
              ("c", .map [("type", .scalar (.str "C"))])])]) := by
  refine ⟨?_, rfl⟩
  obtain ⟨kvs, hr, hgo⟩ := merge_pattern_map_eq rest m n r h
  refine ⟨kvs, hr, ?_, ?_, ?_⟩
  · rw [mergeKeysGo_keys _ _ _ _ _ kvs hgo]
    unfold unionKeys
    rw [unionKeysAux_eq_append (n.map Prod.fst) (m.map Prod.fst) hnd]
    rw [List.filter_append]
    have h1 : (m.map Prod.fst).filter (keyKeptB m n rest) = m.map Prod.fst := by
      apply List.filter_eq_self.mpr
      intro k hk
      simp [keyKeptB, (containsKey_iff_mem m k).mpr hk]
    rw [h1, List.filter_filter]
    congr 1
    apply List.filter_congr
    intro k hk
    have hcn : containsKey n k = true := (containsKey_iff_mem n k).mpr hk
    rw [contains_map_fst]
    cases hcm : containsKey m k with
    | true => simp [keyKeptB, hcm]
    | false =>
      cases hre : rest.isEmpty with
      | true => simp [keyKeptB, hcm, hre, hcn]
      | false => simp [keyKeptB, hcm, hre]
  · intro q mv nv hmv hnv
    have hqm : q ∈ m.map Prod.fst :=
      (containsKey_iff_mem m q).mp (by simp [containsKey, hmv])
    have hqu : q ∈ unionKeys m n := mem_unionKeys_left m n q hqm
    have hlk := mergeKeysGo_lookup _ m n rest _ kvs hgo q
    rw [if_pos hqu] at hlk
    have hke : keyEntry (merge_pattern rest) m n rest q =
        merge_pattern rest mv nv := by
      simp [keyEntry, hmv, hnv]
    rw [hke] at hlk
    have hmem : q ∈ kvs.map Prod.fst := by
      rw [mergeKeysGo_keys _ _ _ _ _ kvs hgo]
      exact List.mem_filter.mpr
        ⟨hqu, by simp [keyKeptB, containsKey, hmv]⟩
    have hsome : containsKey kvs q = true :=
      (containsKey_iff_mem kvs q).mpr hmem
    rw [containsKey] at hsome
    cases hu : merge_pattern rest mv nv with
    | none =>
      rw [hu] at hlk
      rw [hlk] at hsome
      simp at hsome
    | some u => exact ⟨u, rfl, by rw [hlk, hu]⟩
  · intro q mv hmv hnv
    have hqm : q ∈ m.map Prod.fst :=
      (containsKey_iff_mem m q).mp (by simp [containsKey, hmv])
    have hqu : q ∈ unionKeys m n := mem_unionKeys_left m n q hqm
    have hlk := mergeKeysGo_lookup _ m n rest _ kvs hgo q
    rw [if_pos hqu] at hlk
    simpa [keyEntry, hmv, hnv] using hlk

theorem claim_C3_witness :
    merge_yaml ["models.*.type"]
        (.map [("models", .map [("a", .map [("type", .scalar (.str "A"))]),
                                ("b", .map [("type", .scalar (.str "B"))])])])
        (.map [("models", .map [("b", .map [("type", .scalar (.str "B2"))]),
                                ("c", .map [("type", .scalar (.str "C"))])])]) =
      some (.map [("models",
        .map [("a", .map [("type", .scalar (.str "A"))]),
              ("b", .map [("type", .scalar (.str "B2"))]),
              ("c", .map [("type", .scalar (.str "C"))])])]) :=
  (claim_C3_wildcard_mapping_amended ["type"]
    [("a", .map [("type", .scalar (.str "A"))]),
     ("b", .map [("type", .scalar (.str "B"))])]
    [("b", .map [("type", .scalar (.str "B2"))]),
     ("c", .map [("type", .scalar (.str "C"))])]
    (.map [("a", .map [("type", .scalar (.str "A"))]),
           ("b", .map [("type", .scalar (.str "B2"))]),
           ("c", .map [("type", .scalar (.str "C"))])])
    (by decide) rfl).2

/-- C4 (counterexample): for a new-only key containing a dot, the code does
not resolve the remaining tokens inside the new mapping's value at that key:
it joins the key and the remaining tokens into one dotted string and
resolves it inside the new mapping itself.  Here the remaining path `["r"]`
inside `new["a.b"]` resolves to the truthy value `5`, but the result binds
`"a.b"` to the single-branch tree holding `7`, the value found by re-split
along `new["a"]["b"]["r"]`, not to the tree holding `5`. -/
theorem claim_C4_counterexample :
    merge_pattern ["*", "r"] (.map [("z", .scalar (.int 1))])
        (.map [("a.b", .map [("r", .scalar (.int 5))]),
               ("a", .map [("b", .map [("r", .scalar (.int 7))])])]) =
      some (.map [("z", .scalar (.int 1)),
                  ("a.b", .map [("r", .scalar (.int 7))])]) ∧
    get_nested_value (.map [("r", .scalar (.int 5))]) (pyJoin ["r"]) =
      some (.scalar (.int 5)) ∧
    truthy (.scalar (.int 5)) = true ∧
    lookupKV [("z", Yaml.scalar (.int 1)),
              ("a.b", Yaml.map [("r", Yaml.scalar (.int 7))])] "a.b" ≠
      some (create_dict_with_field (pyJoin ["r"]) (.scalar (.int 5))) := by
  refine ⟨rfl, rfl, rfl, ?_⟩
  intro hc
  have heval : lookupKV [("z", Yaml.scalar (.int 1)),
      ("a.b", Yaml.map [("r", Yaml.scalar (.int 7))])] "a.b" =
      some (.map [("r", .scalar (.int 7))]) := rfl
  have hcreate : create_dict_with_field (pyJoin ["r"]) (.scalar (.int 5)) =
      .map [("r", .scalar (.int 5))] := rfl
  rw [heval, hcreate] at hc
  simp at hc

/-- C4 (amended): at a wildcard token over two mappings, for a key present
only in the new mapping and with remaining tokens left: if the key and the
remaining tokens joined into one dotted string resolve inside the new
mapping itself to a truthy value, the result binds the key to the fresh
single-branch mapping built from the joined remaining path and that value;
otherwise the key is absent from the result. -/
theorem claim_C4_newonly_amended (rest : List String)
    (m n kvs : List (String × Yaml)) (q : String) (w : Yaml)
    (hne : rest ≠ [])
    (hm : lookupKV m q = none) (hn : lookupKV n q = some w)
    (h : merge_pattern ("*" :: rest) (.map m) (.map n) = some (.map kvs)) :
    (∀ v, get_nested_value (.map n) (q ++ "." ++ pyJoin rest) = some v →
        truthy v = true →
        lookupKV kvs q = some (create_dict_with_field (pyJoin rest) v)) ∧
    (truthyOpt (get_nested_value (.map n) (q ++ "." ++ pyJoin rest)) =
        false → lookupKV kvs q = none) := by
  obtain ⟨kvs2, hk2, hgo⟩ := merge_pattern_map_eq rest m n _ h
  injection hk2 with he
  subst he
  have hre : rest.isEmpty = false := by
    cases rest with
    | nil => exact absurd rfl hne
    | cons a b => rfl
  have hqn : q ∈ n.map Prod.fst :=
    (containsKey_iff_mem n q).mp (by simp [containsKey, hn])
  have hqu : q ∈ unionKeys m n := mem_unionKeys_right m n q hqn
  have hlk := mergeKeysGo_lookup _ m n rest _ kvs hgo q
  rw [if_pos hqu] at hlk
  constructor
  · intro v hv htr
    rw [hlk]
    simp [keyEntry, hm, hre, hv, htr]
  · intro hfalse
    rw [hlk]
    cases hv : get_nested_value (.map n) (q ++ "." ++ pyJoin rest) with
    | none => simp [keyEntry, hm, hre, hv]
    | some v =>
      rw [hv] at hfalse
      simp [truthyOpt] at hfalse
      simp [keyEntry, hm, hre, hv, hfalse]

theorem claim_C4_witness :
    lookupKV [("a", Yaml.map [("type", Yaml.scalar (.str "A"))]),
              ("c", Yaml.map [("type", Yaml.scalar (.str "C"))])] "c" =
      some (create_dict_with_field (pyJoin ["type"])
        (.scalar (.str "C"))) :=
  (claim_C4_newonly_amended ["type"]
    [("a", .map [("type", .scalar (.str "A"))])]
    [("c", .map [("type", .scalar (.str "C"))])]
    [("a", .map [("type", .scalar (.str "A"))]),
     ("c", .map [("type", .scalar (.str "C"))])]
    "c" (.map [("type", .scalar (.str "C"))])
    (by simp) rfl rfl rfl).1 (.scalar (.str "C")) rfl rfl

/-- C6: for a literal token, (a) if the merged node is a mapping and the key
is absent from the new mapping, the merged node is returned unchanged;
(b) if the merged node is not a mapping, `merge_pattern` returns the new
node as-is, without error; (c) in particular a scalar root supplied to
`merge_yaml` with a literal top-level pattern yields the new tree wholesale. -/
theorem claim_C6_literal_degrade (m n : List (String × Yaml)) (k : String)
    (rest : List String) (merged new newRoot : Yaml) (s : Scalar)
    (pat : String) (t : String) (ts : List String)
    (hk : k ≠ "*") (habs : lookupKV n k = none)
    (hnm : merged.isMap = false)
    (hsplit : pySplit pat = t :: ts) (ht : t ≠ "*") :
    merge_pattern (k :: rest) (.map m) (.map n) = some (.map m) ∧
    merge_pattern (k :: rest) merged new = some new ∧
    merge_yaml [pat] (.scalar s) newRoot = some newRoot := by
  refine ⟨?_, ?_, ?_⟩
  · simp [merge_pattern, hk, pyIn, containsKey, habs]
  · cases merged with
    | map mkvs => simp [Yaml.isMap] at hnm
    | seq xs => simp [merge_pattern, hk]
    | scalar sc => simp [merge_pattern, hk]
  · simp [merge_yaml, List.foldlM, hsplit, merge_pattern, ht]

theorem claim_C6_witness :
    merge_yaml ["a.b"] (.scalar (.str "old")) (.scalar (.str "new")) =
      some (.scalar (.str "new")) :=
  (claim_C6_literal_degrade [] [] "a" [] (.scalar .null) (.scalar .null)
    (.scalar (.str "new")) (.str "old") "a.b" "a" ["b"]
    (by decide) rfl (by decide) (by decide) (by decide)).2.2
